import Mathlib

/-!
Verification of the module-dependency resolution and academic-planning engine
of the Module Scheduler application.

The Python source (`ModuleSchedulerAppV2.py`) is shallowly embedded here:

* a Python `dict` mapping module codes to modules is an association list
  (`ModuleDict`) whose keys are pairwise distinct (hypothesis `Nodup` where
  it matters);
* `detect_cycle` (recursive DFS with a visited set, a recursion stack and a
  path) and `topological_sort` (Kahn's algorithm) are embedded with an
  explicit fuel argument large enough that the fuel never runs out on real
  inputs (this is proved where needed);
* the credit planner (`generate_credit_plan`), the path simulator
  (`run_simulation`), the eligibility computation
  (`update_eligible_modules_list`) and the login completed-set construction
  are embedded as pure state-passing functions.

Python's `int` is modelled by `Int` where subtraction matters (in-degrees),
and by `Nat` for credits.
-/

namespace Scheduler

/-- A course module, mirroring the Python `Module` class
(`code`, `name`, `tracks`, `prerequisites`, `credits`, credits default 3). -/
structure Module where
  code : String
  name : String
  tracks : List String
  prerequisites : List String
  credits : Nat := 3
deriving DecidableEq, Repr

/-- A Python dict mapping module codes to `Module`s, in insertion order.
Genuine dicts have pairwise-distinct keys; theorems assume `(keysOf sm).Nodup`
where the proof needs it. -/
abbrev ModuleDict := List (String × Module)

/-- The keys of the dict, in insertion order. -/
def keysOf (sm : ModuleDict) : List String := sm.map Prod.fst

/-- Graph construction shared by `detect_cycle` and `topological_sort`
(the two Python functions contain the identical loop):
`for code, mod in selected_modules.items(): for pre in mod.prerequisites:
  if pre in selected_modules: graph[pre].append(code)`.
The graph maps a prerequisite to the list of its dependents, in edge-insertion
order; an edge is added only when the prerequisite is itself a key. -/
def buildGraph (sm : ModuleDict) : String → List String :=
  sm.foldl
    (fun g cm =>
      cm.2.prerequisites.foldl
        (fun g2 pre =>
          if pre ∈ keysOf sm then
            fun q => if q = pre then g2 q ++ [cm.1] else g2 q
          else g2)
        g)
    (fun _ => [])

/-- The edge relation of the subset-scoped prerequisite graph:
`Edge sm pre code` holds when the built adjacency lists `code` as a
dependent of `pre`. -/
def Edge (sm : ModuleDict) (pre code : String) : Prop :=
  code ∈ buildGraph sm pre

/-- The subset graph has no directed cycle. -/
def Acyclic (sm : ModuleDict) : Prop :=
  ∀ code, ¬ Relation.TransGen (Edge sm) code code

/-- In-degree construction of `topological_sort`:
`in_degree = {code: 0 for code in selected_modules}` followed by
`in_degree[code] += 1` for every prerequisite occurrence that is a key of
the subset. -/
def buildInDegree (sm : ModuleDict) : String → Int :=
  sm.foldl
    (fun f cm =>
      cm.2.prerequisites.foldl
        (fun f2 pre =>
          if pre ∈ keysOf sm then
            fun q => if q = cm.1 then f2 q + 1 else f2 q
          else f2)
        f)
    (fun _ => 0)

/-- Inner loop of Kahn's algorithm: for each neighbor of the popped node,
decrement its in-degree and enqueue it when the in-degree reaches zero. -/
def processNeighbors : List String → (String → Int) → List String → ((String → Int) × List String)
  | [], f, queue => (f, queue)
  | nb :: nbs, f, queue =>
    let f2 : String → Int := fun c => if c = nb then f nb - 1 else f c
    processNeighbors nbs f2 (if f2 nb = 0 then queue ++ [nb] else queue)

/-- Main loop of Kahn's algorithm (`while queue: ...`), with fuel.
`topological_sort` supplies fuel `sm.length + 1`, which is proved sufficient
for dict inputs (each node is enqueued at most once). -/
def kahnLoop (g : String → List String) : Nat → List String → List String → (String → Int) → List String
  | 0, _, ordering, _ => ordering
  | _ + 1, [], ordering, _ => ordering
  | fuel + 1, node :: rest, ordering, f =>
    let step := processNeighbors (g node) f rest
    kahnLoop g fuel step.2 (ordering ++ [node]) step.1

/-- The `for neighbor in graph.get(node, [])` loop of the Python `dfs`,
parameterized by the recursive visit `rec` (which `dfsGo` instantiates with
itself at one less fuel).  On an unvisited neighbor it recurses (returning
immediately on `True`, i.e. a found cycle); on a neighbor on the recursion
stack it returns the cycle `path[path.index(neighbor):]`; otherwise it
continues with the next neighbor. -/
def dfsVisitNbrs
    (rec : String → List String → List String → List String →
      List String × List String × List String × Option (List String)) :
    List String → List String → List String → List String →
    List String × List String × List String × Option (List String)
  | [], visited, rec_stack, path => (visited, rec_stack, path, none)
  | neighbor :: rest, visited, rec_stack, path =>
    if neighbor ∉ visited then
      match rec neighbor visited rec_stack path with
      | (v2, r2, p2, some cyc) => (v2, r2, p2, some cyc)
      | (v2, r2, p2, none) => dfsVisitNbrs rec rest v2 r2 p2
    else if neighbor ∈ rec_stack then
      (visited, rec_stack, path, some (path.drop (path.indexOf neighbor)))
    else dfsVisitNbrs rec rest visited rec_stack path

/-- One full DFS visit of `node` (the Python `dfs(node, path)`): mark the
node visited, push it on the recursion stack and the path, walk its
neighbors, then pop the node on a clean (`False`) return.  The fourth
component is `some cycle` exactly when the Python function returns `True`
(having set `cycle_found`).  Fuel bounds the recursion depth;
`detect_cycle` supplies `sm.length + 1`, which never runs out (proved where
completeness is needed). -/
def dfsGo (g : String → List String) : Nat → String → List String → List String → List String →
    List String × List String × List String × Option (List String)
  | 0, _, visited, rec_stack, path => (visited, rec_stack, path, none)
  | fuel + 1, node, visited, rec_stack, path =>
    let v1 := visited.insert node
    let r1 := rec_stack.insert node
    let p1 := path ++ [node]
    match dfsVisitNbrs (dfsGo g fuel) (g node) v1 r1 p1 with
    | (v2, r2, p2, some cyc) => (v2, r2, p2, some cyc)
    | (v2, r2, p2, none) => (v2, r2.erase node, p2.dropLast, none)

/-- The outer `for node in selected_modules: if node not in visited: ...`
loop of `detect_cycle`; the path starts fresh (`[]`) at each root while the
visited set and recursion stack persist. -/
def detectLoop (g : String → List String) (fuel : Nat) :
    List String → List String → List String → Option (List String)
  | [], _, _ => none
  | node :: rest, visited, rec_stack =>
    if node ∉ visited then
      match dfsGo g fuel node visited rec_stack [] with
      | (_, _, _, some cyc) => some cyc
      | (v2, r2, _, none) => detectLoop g fuel rest v2 r2
    else detectLoop g fuel rest visited rec_stack

/-- `detect_cycle(selected_modules)`: DFS-based cycle detection.
Returns the cycle slice `path[cycle_index:]` if a back edge is found,
`none` otherwise. -/
def detect_cycle (sm : ModuleDict) : Option (List String) :=
  detectLoop (buildGraph sm) (sm.length + 1) (keysOf sm) [] []

/-- `topological_sort(selected_modules)`: Kahn's algorithm; on failure
(`len(ordering) != len(selected_modules)`) it reports the detector's cycle. -/
def topological_sort (sm : ModuleDict) : Option (List String) × Option (List String) :=
  let in_degree := buildInDegree sm
  let queue := (keysOf sm).filter (fun code => decide (in_degree code = 0))
  let ordering := kahnLoop (buildGraph sm) (sm.length + 1) queue [] in_degree
  if ordering.length = sm.length then (some ordering, none) else (none, detect_cycle sm)

/-- What it means for `detect_cycle`'s answer to be a genuine cycle:
non-empty, no repeated node, consecutive elements joined by real edges, and
a closing edge from the last element back to the first. -/
def CycleValid (sm : ModuleDict) (cyc : List String) : Prop :=
  cyc ≠ [] ∧ cyc.Nodup ∧ List.Chain' (Edge sm) cyc ∧
    ∀ a b, cyc.head? = some a → cyc.getLast? = some b → Edge sm b a

/-- The `while eligible_modules:` loop of `generate_credit_plan`.
State: eligible dict, running completed set, closed semesters, current
semester, current credits.  A fuel argument bounds the iteration count
(`generate_credit_plan` supplies `2 * remaining.length + 3`, enough because
every iteration either commits a module or closes a non-empty semester).
On normal exit and on fuel exhaustion the non-empty current semester is
appended, mirroring the `if current_semester:` after the Python loop; the
`break` arm (no eligible module fits an empty semester) leaves the current
semester empty so nothing is appended. -/
def planLoop (remaining : ModuleDict) (target_credits : Int) :
    Nat → ModuleDict → List String → List (List String) → List String → Int → List (List String)
  | 0, _, _, semesters, current_semester, _ =>
    semesters ++ (if current_semester.isEmpty then [] else [current_semester])
  | fuel + 1, eligible_modules, completed_set, semesters, current_semester, current_credits =>
    if eligible_modules.isEmpty then
      semesters ++ (if current_semester.isEmpty then [] else [current_semester])
    else
      match eligible_modules.find?
          (fun cm => decide (current_credits + (cm.2.credits : Int) ≤ target_credits)) with
      | some best_fit =>
        let completed2 := completed_set.insert best_fit.1
        let base := eligible_modules.eraseP (fun cm => cm.1 == best_fit.1)
        let eligible2 := remaining.foldl
          (fun acc rm =>
            if rm.1 ∉ completed2 ∧ rm.1 ∉ keysOf acc ∧
                rm.2.prerequisites.all (fun pre => decide (pre ∈ completed2)) then
              acc ++ [rm]
            else acc)
          base
        planLoop remaining target_credits fuel eligible2 completed2 semesters
          (current_semester ++ [best_fit.1]) (current_credits + best_fit.2.credits)
      | none =>
        if current_semester.isEmpty then semesters
        else planLoop remaining target_credits fuel eligible_modules completed_set
          (semesters ++ [current_semester]) [] 0

/-- `generate_credit_plan`: the credit-capped semester planner.  `remaining`
is the dict of not-yet-completed course modules, `completed_keys` the codes
of the student's completed modules, `target_credits` the per-semester cap.
Returns `none` when there is nothing to plan (`remaining` empty), when a
cycle is reported, or in the unreachable state where the sort fails without
a reported cycle (the Python code would crash iterating `None` there). -/
def generate_credit_plan (remaining : ModuleDict) (completed_keys : List String)
    (target_credits : Int) : Option (List (List String)) :=
  if remaining.isEmpty then none
  else
    match topological_sort remaining with
    | (some topo_order, none) =>
      let eligible0 := topo_order.foldl
        (fun acc code =>
          match List.lookup code remaining with
          | some m =>
            if m.prerequisites.all (fun pre => decide (pre ∈ completed_keys)) then
              acc ++ [(code, m)]
            else acc
          | none => acc)
        []
      some (planLoop remaining target_credits (2 * remaining.length + 3) eligible0
        completed_keys [] [] 0)
    | (_, _) => none

/-- Position of a code in a plan: (semester index, index within that
semester's ordered list), taking the first semester containing the code. -/
def planPos (plan : List (List String)) (code : String) : Nat × Nat :=
  let i := plan.findIdx (fun semester => decide (code ∈ semester))
  (i, (plan.getD i []).indexOf code)

/-- The body of the rescan fold inside `planLoop` (definitionally equal to
the inline lambda there), named so the rescan can be reasoned about. -/
def rescanStep (completed2 : List String) (acc : ModuleDict) (rm : String × Module) :
    ModuleDict :=
  if rm.1 ∉ completed2 ∧ rm.1 ∉ keysOf acc ∧
      rm.2.prerequisites.all (fun pre => decide (pre ∈ completed2)) then
    acc ++ [rm]
  else acc

/-- The body of the initial-eligibility fold inside `generate_credit_plan`
(definitionally equal to the inline lambda there). -/
def eligStep (remaining : ModuleDict) (completed_keys : List String)
    (acc : ModuleDict) (code : String) : ModuleDict :=
  match List.lookup code remaining with
  | some m =>
    if m.prerequisites.all (fun pre => decide (pre ∈ completed_keys)) then
      acc ++ [(code, m)]
    else acc
  | none => acc

/-- Per-code outcome of the path simulation. -/
inductive SimStatus where
  | notFound : SimStatus
  | blocked : List String → SimStatus
  | accepted : SimStatus
deriving DecidableEq, Repr

/-- The per-code walk of `run_simulation`: look the code up in the catalog
(`NotFound` if absent), compute the missing prerequisites against the
simulated-completed working copy, record `Blocked`/`Accepted`, and add the
code to the working copy only when accepted.  Any failure clears
`valid_path`. -/
def simWalk (catalog : ModuleDict) :
    List String → List String → Bool → List (String × SimStatus) →
    List (String × SimStatus) × Bool × List String
  | [], simulated_completed, valid_path, records => (records, valid_path, simulated_completed)
  | code :: rest, simulated_completed, valid_path, records =>
    match List.lookup code catalog with
    | none => simWalk catalog rest simulated_completed false (records ++ [(code, SimStatus.notFound)])
    | some m =>
      let missing := m.prerequisites.filter (fun pre => decide (pre ∉ simulated_completed))
      if missing.isEmpty then
        simWalk catalog rest (simulated_completed.insert code) valid_path
          (records ++ [(code, SimStatus.accepted)])
      else
        simWalk catalog rest simulated_completed false
          (records ++ [(code, SimStatus.blocked missing)])

/-- Result of `run_simulation`. -/
structure SimResult where
  records : List (String × SimStatus)
  valid : Bool
  simulated_completed : List String
  total_credits : Nat
deriving DecidableEq, Repr

/-- `run_simulation`: walk the user-supplied path against the catalog
starting from the real completed-set, then compute
`sum(catalog[code].credits for code in module_codes if code in catalog)` —
note the sum ranges over every occurrence in the input list. -/
def run_simulation (module_codes : List String) (catalog : ModuleDict)
    (completed_keys : List String) : SimResult :=
  let walk := simWalk catalog module_codes completed_keys true []
  let total := ((module_codes.filter (fun code => decide (code ∈ keysOf catalog))).map
    (fun code => ((List.lookup code catalog).map Module.credits).getD 0)).sum
  ⟨walk.1, walk.2.1, walk.2.2, total⟩

/-- The static `related_courses` table of the source, verbatim. -/
def related_courses : List (String × List String) := [
  ("Data Science", ["Mathematics", "Electric Engineering", "Computer Science", "Economics"]),
  ("Mathematics", ["Data Science", "Electric Engineering", "Computer Science", "Economics"]),
  ("Electric Engineering", ["Data Science", "Mathematics", "Computer Science"]),
  ("Computer Science", ["Data Science", "Mathematics", "Electric Engineering"]),
  ("Linguistics", ["English", "Philosophy", "Sociology", "History"]),
  ("Microbiology", ["Biology", "Chemistry", "Medicine"]),
  ("Physiology", ["Biology", "Medicine"]),
  ("English", ["Linguistics", "History", "Philosophy"]),
  ("History", ["English", "Philosophy", "Sociology", "Linguistics"]),
  ("Economics", ["Business", "Mathematics", "Data Science", "Law"]),
  ("Business", ["Economics", "Law", "Sociology"]),
  ("Philosophy", ["Linguistics", "English", "History", "Sociology"]),
  ("Sociology", ["History", "Philosophy", "Psychology", "Business", "Linguistics"]),
  ("Art", ["History", "English"]),
  ("Biology", ["Chemistry", "Medicine", "Microbiology", "Physiology"]),
  ("Chemistry", ["Biology", "Medicine", "Microbiology"]),
  ("Psychology", ["Sociology", "Medicine", "Philosophy"]),
  ("Law", ["Economics", "Business"]),
  ("Medicine", ["Nursing", "Biology", "Physiology", "Chemistry", "Psychology"]),
  ("Nursing", ["Medicine", "Psychology"])]

/-- `related_courses.get(course, [])`. -/
def relatedCoursesGet (course : String) : List String :=
  (List.lookup course related_courses).getD []

/-- `update_eligible_modules_list`: a module is listed when its tracks meet
the primary course or a related course, it is not already completed, and
every prerequisite code is in the completed-set. -/
def update_eligible_modules_list (catalog : ModuleDict) (course : String)
    (completed_keys : List String) : List Module :=
  let related := relatedCoursesGet course
  catalog.foldl
    (fun eligible cm =>
      if decide (course ∈ cm.2.tracks) || related.any (fun r => decide (r ∈ cm.2.tracks)) then
        if cm.1 ∈ completed_keys then eligible
        else if cm.2.prerequisites.all (fun pre => decide (pre ∈ completed_keys)) then
          eligible ++ [cm.2]
        else eligible
      else eligible)
    []

/-- Python dict assignment `d[key] = value`: overwrite in place if the key
exists, else append. -/
def dictSet (d : ModuleDict) (key : String) (value : Module) : ModuleDict :=
  if key ∈ keysOf d then d.map (fun kv => if kv.1 = key then (key, value) else kv)
  else d ++ [(key, value)]

/-- The completed-set construction in `ModuleSchedulerApp.login`:
`for mod_code in student_info.get("completed", []): if mod_code in
self.modules_catalog: student.completed[mod_code] = self.modules_catalog[mod_code]`. -/
def login_load_completed (catalog : ModuleDict) (completed_codes : List String) : ModuleDict :=
  completed_codes.foldl
    (fun completed mod_code =>
      match List.lookup mod_code catalog with
      | some m => dictSet completed mod_code m
      | none => completed)
    []

/-- Fixture: the three-module chain of the specification's Example 1. -/
def modA : Module := ⟨"A", "Module A", ["Data Science"], [], 3⟩

/-- Fixture module B, prerequisite A, 4 credits. -/
def modB : Module := ⟨"B", "Module B", ["Data Science"], ["A"], 4⟩

/-- Fixture module C, prerequisite B, 3 credits. -/
def modC : Module := ⟨"C", "Module C", ["Data Science"], ["B"], 3⟩

/-- Fixture catalog `{A, B, C}` (Example 1 of the specification). -/
def exChain : ModuleDict := [("A", modA), ("B", modB), ("C", modC)]

/-- Fixture: module X of the two-cycle, prerequisite Y. -/
def modX : Module := ⟨"X", "Module X", [], ["Y"], 3⟩

/-- Fixture: module Y of the two-cycle, prerequisite X. -/
def modY : Module := ⟨"Y", "Module Y", [], ["X"], 3⟩

/-- Fixture subset with the mutual cycle X ↔ Y (Example 2). -/
def exCyclic : ModuleDict := [("X", modX), ("Y", modY)]

/-- Fixture: a module whose prerequisite Z is outside the subset and not
completed, so it can never be committed by the planner. -/
def modBext : Module := ⟨"B", "Module B ext", [], ["Z"], 3⟩

/-- Fixture remaining-set where module B is permanently blocked by the
external prerequisite Z. -/
def exBlocked : ModuleDict := [("A", modA), ("B", modBext)]

/-- Invariant of the DFS state of `detect_cycle` between calls: the path is
duplicate-free, the recursion stack holds exactly the path's elements, path
elements are visited, visited nodes are subset keys, consecutive path
elements are joined by edges, and `L` (a ghost listing of the finished
nodes, i.e. visited and off-stack, in finishing order) is a reverse
topological certificate: every edge out of a finished node leads to an
earlier-finished node. -/
structure DfsInv (sm : ModuleDict) (visited rec_stack path L : List String) : Prop where
  p_nodup : path.Nodup
  r_iff : ∀ c, c ∈ rec_stack ↔ c ∈ path
  p_sub_v : ∀ c ∈ path, c ∈ visited
  v_keys : ∀ c ∈ visited, c ∈ keysOf sm
  p_chain : List.Chain' (Edge sm) path
  L_nodup : L.Nodup
  L_iff : ∀ c, c ∈ L ↔ (c ∈ visited ∧ c ∉ rec_stack)
  L_topo : ∀ (i : Nat) (hi : i < L.length) (b : String),
    Edge sm (L.get ⟨i, hi⟩) b → b ∈ L.take i

/-- Specification of a recursive DFS visit function (satisfied by
`dfsGo (buildGraph sm) fuel` whenever the unvisited portion of the key set
is smaller than `bound = fuel`): from an invariant state, visiting a fresh
key either returns a valid cycle, or returns cleanly with the stack and
path restored, the visited set grown to include the node, and the invariant
re-established for some extended finished list. -/
def DfsRecSpec (sm : ModuleDict)
    (rec : String → List String → List String → List String →
      List String × List String × List String × Option (List String))
    (bound : Nat) : Prop :=
  ∀ (node : String) (v r p L : List String),
    DfsInv sm v r p L → node ∉ v → node ∈ keysOf sm →
    (∀ x, p.getLast? = some x → Edge sm x node) →
    ((keysOf sm).toFinset \ v.toFinset).card < bound →
    ∀ v2 r2 p2 res, rec node v r p = (v2, r2, p2, res) →
      ((∃ cyc, res = some cyc ∧ CycleValid sm cyc) ∨
       (res = none ∧ r2 = r ∧ p2 = p ∧ (∀ c ∈ v, c ∈ v2) ∧ node ∈ v2 ∧
         ∃ L2, DfsInv sm v2 r p L2))

/-- Loop invariant of the credit planner (`planLoop`), stated over the
`committed` list (the semesters flattened in commit order followed by the
current semester): committed codes are distinct keys of the remaining set;
the running completed set is the student's real completed set plus exactly
the committed codes; eligible entries are uncommitted remaining modules
whose prerequisites are all satisfied; every committed module had all its
prerequisites satisfied when committed; and every committed module's
in-remaining prerequisites were committed strictly earlier. -/
structure PlanInv (remaining : ModuleDict) (completed0 : List String)
    (elig : ModuleDict) (comp : List String) (committed : List String) : Prop where
  committed_nodup : committed.Nodup
  committed_keys : ∀ c ∈ committed, c ∈ keysOf remaining
  comp_iff : ∀ x, x ∈ comp ↔ (x ∈ completed0 ∨ x ∈ committed)
  elig_keys_nodup : (keysOf elig).Nodup
  elig_mem : ∀ cm ∈ elig, List.lookup cm.1 remaining = some cm.2
  elig_not_comp : ∀ cm ∈ elig, cm.1 ∉ comp
  elig_sat : ∀ cm ∈ elig, ∀ pre ∈ cm.2.prerequisites, pre ∈ comp
  committed_sat : ∀ c ∈ committed, ∀ m, List.lookup c remaining = some m →
    ∀ pre ∈ m.prerequisites, pre ∈ comp
  ordered : ∀ (i : Nat) (hi : i < committed.length) (m : Module),
    List.lookup (committed.get ⟨i, hi⟩) remaining = some m →
    ∀ pre ∈ m.prerequisites, pre ∈ keysOf remaining → pre ∈ committed.take i

/-- Loop invariant of Kahn's algorithm (`kahnLoop`): the ordering and queue
are disjoint duplicate-free lists of subset keys; `f` is each node's count of
in-subset prerequisite occurrences whose source is not yet in the ordering;
a node has been seen (ordering or queue) iff all its in-subset prerequisite
sources are already in the ordering; and the ordering respects all edges
among its members. -/
structure KahnInv (sm : ModuleDict) (queue ordering : List String) (f : String → Int) : Prop where
  ord_nodup : ordering.Nodup
  q_nodup : queue.Nodup
  disj : ∀ c ∈ queue, c ∉ ordering
  ord_keys : ∀ c ∈ ordering, c ∈ keysOf sm
  q_keys : ∀ c ∈ queue, c ∈ keysOf sm
  fval : ∀ cm ∈ sm, f cm.1 =
    ((cm.2.prerequisites.filter
      (fun pre => decide (pre ∈ keysOf sm) && decide (pre ∉ ordering))).length : Int)
  mem_iff : ∀ cm ∈ sm, (cm.1 ∈ ordering ∨ cm.1 ∈ queue) ↔
    (∀ pre ∈ cm.2.prerequisites, pre ∈ keysOf sm → pre ∈ ordering)
  sorted : ∀ cm ∈ sm, cm.1 ∈ ordering → ∀ pre ∈ cm.2.prerequisites, pre ∈ keysOf sm →
    pre ∈ ordering ∧ ordering.indexOf pre < ordering.indexOf cm.1

/-! ### Closed forms for the graph builders -/

theorem graph_inner_fold (sm : ModuleDict) (c : String) (P : List String)
    (g : String → List String) (q : String) :
    (P.foldl
      (fun g2 pre =>
        if pre ∈ keysOf sm then
          fun x => if x = pre then g2 x ++ [c] else g2 x
        else g2)
      g) q
      = g q ++ (P.filter (fun pre => decide (pre = q) && decide (pre ∈ keysOf sm))).map
          (fun _ => c) := by
  induction P generalizing g with
  | nil => simp
  | cons pre P ih =>
    simp only [List.foldl_cons, List.filter_cons]
    by_cases hk : pre ∈ keysOf sm
    · by_cases hq : pre = q
      · subst hq
        simp [hk, ih]
      · have : ¬(q = pre) := fun h => hq h.symm
        simp [hk, hq, ih, this]
    · simp [hk, ih]

theorem graph_outer_fold (sm : ModuleDict) (L : ModuleDict)
    (g0 : String → List String) (q : String) :
    (L.foldl
      (fun g cm =>
        cm.2.prerequisites.foldl
          (fun g2 pre =>
            if pre ∈ keysOf sm then
              fun x => if x = pre then g2 x ++ [cm.1] else g2 x
            else g2)
          g)
      g0) q
      = g0 q ++ (L.map (fun cm =>
          (cm.2.prerequisites.filter
            (fun pre => decide (pre = q) && decide (pre ∈ keysOf sm))).map
            (fun _ => cm.1))).flatten := by
  induction L generalizing g0 with
  | nil => simp
  | cons cm L ih =>
    simp only [List.foldl_cons, List.map_cons, List.flatten_cons]
    rw [ih, graph_inner_fold, List.append_assoc]

theorem buildGraph_eq (sm : ModuleDict) (q : String) :
    buildGraph sm q
      = (sm.map (fun cm =>
          (cm.2.prerequisites.filter
            (fun pre => decide (pre = q) && decide (pre ∈ keysOf sm))).map
            (fun _ => cm.1))).flatten := by
  unfold buildGraph
  rw [graph_outer_fold]
  simp

/-- Characterization of the edge relation: `Edge sm a b` holds exactly when
`a` is a key of the subset and some entry `(b, m)` of the subset lists `a`
among its prerequisites. -/
theorem edge_iff (sm : ModuleDict) (a b : String) :
    Edge sm a b ↔ a ∈ keysOf sm ∧ ∃ m, (b, m) ∈ sm ∧ a ∈ m.prerequisites := by
  unfold Edge
  rw [buildGraph_eq]
  simp only [List.mem_flatten, List.mem_map]
  constructor
  · rintro ⟨l, ⟨cm, hcm, rfl⟩, hb⟩
    simp only [List.mem_map, List.mem_filter, Bool.and_eq_true, decide_eq_true_eq] at hb
    obtain ⟨pre, ⟨hpre, rfl, hk⟩, rfl⟩ := hb
    exact ⟨hk, cm.2, by simpa using hcm, hpre⟩
  · rintro ⟨hk, m, hm, hpre⟩
    refine ⟨_, ⟨(b, m), hm, rfl⟩, ?_⟩
    apply List.mem_map.2
    refine ⟨a, ?_, rfl⟩
    apply List.mem_filter.2
    refine ⟨hpre, ?_⟩
    simp [hk]

theorem edge_pre_mem_keys {sm : ModuleDict} {a b : String} (h : Edge sm a b) :
    a ∈ keysOf sm := ((edge_iff sm a b).1 h).1

theorem edge_code_mem_keys {sm : ModuleDict} {a b : String} (h : Edge sm a b) :
    b ∈ keysOf sm := by
  obtain ⟨-, m, hm, -⟩ := (edge_iff sm a b).1 h
  exact List.mem_map.2 ⟨(b, m), hm, rfl⟩

theorem buildGraph_not_mem_keys (sm : ModuleDict) (q : String) (hq : q ∉ keysOf sm) :
    buildGraph sm q = [] := by
  rw [buildGraph_eq]
  simp only [List.flatten_eq_nil_iff, List.mem_map]
  rintro l ⟨cm, -, rfl⟩
  have : cm.2.prerequisites.filter
      (fun pre => decide (pre = q) && decide (pre ∈ keysOf sm)) = [] := by
    rw [List.filter_eq_nil_iff]
    intro pre _
    simp only [Bool.and_eq_true, decide_eq_true_eq, not_and]
    rintro rfl
    exact hq
  rw [this, List.map_nil]

theorem indeg_inner_fold (sm : ModuleDict) (c : String) (P : List String)
    (f : String → Int) (q : String) :
    (P.foldl
      (fun f2 pre =>
        if pre ∈ keysOf sm then
          fun x => if x = c then f2 x + 1 else f2 x
        else f2)
      f) q
      = f q + (if q = c then
          ((P.filter (fun pre => decide (pre ∈ keysOf sm))).length : Int) else 0) := by
  induction P generalizing f with
  | nil => simp
  | cons pre P ih =>
    simp only [List.foldl_cons, List.filter_cons]
    by_cases hk : pre ∈ keysOf sm
    · by_cases hq : q = c
      · subst hq
        simp only [hk, if_true]
        rw [ih]
        simp
        ring
      · simp [hk, hq, ih]
    · simp [hk, ih]

theorem buildInDegree_eq (sm : ModuleDict) (q : String) :
    buildInDegree sm q
      = (sm.map (fun cm => if q = cm.1 then
          ((cm.2.prerequisites.filter (fun pre => decide (pre ∈ keysOf sm))).length : Int)
          else 0)).sum := by
  unfold buildInDegree
  have main : ∀ (L : ModuleDict) (f0 : String → Int),
      (L.foldl
        (fun f cm =>
          cm.2.prerequisites.foldl
            (fun f2 pre =>
              if pre ∈ keysOf sm then
                fun x => if x = cm.1 then f2 x + 1 else f2 x
              else f2)
            f)
        f0) q
        = f0 q + (L.map (fun cm => if q = cm.1 then
            ((cm.2.prerequisites.filter (fun pre => decide (pre ∈ keysOf sm))).length : Int)
            else 0)).sum := by
    intro L
    induction L with
    | nil => simp
    | cons cm L ih =>
      intro f0
      simp only [List.foldl_cons, List.map_cons, List.sum_cons]
      rw [ih, indeg_inner_fold]
      ring
  rw [main]
  simp

/-- Summing a function over an association list with distinct keys where the
function vanishes away from key `c` picks out the single entry with key `c`. -/
theorem map_sum_single {α : Type} {M : Type} [AddCommMonoid M] (c : String) (m : α)
    (F : String × α → M) (hF : ∀ cm, c ≠ cm.1 → F cm = 0) :
    ∀ (L : List (String × α)), (L.map Prod.fst).Nodup → (c, m) ∈ L →
      (L.map F).sum = F (c, m) := by
  intro L
  induction L with
  | nil => intro _ h; cases h
  | cons cm L ih =>
    intro hnd hc
    simp only [List.map_cons, List.nodup_cons] at hnd
    simp only [List.map_cons, List.sum_cons]
    rcases List.mem_cons.1 hc with heq | hmem
    · subst heq
      have htail : (L.map F).sum = 0 := by
        apply List.sum_eq_zero
        intro x hx
        obtain ⟨cm', hcm', rfl⟩ := List.mem_map.1 hx
        apply hF
        intro hcc
        apply hnd.1
        have hmm : cm'.1 ∈ List.map Prod.fst L := List.mem_map.2 ⟨cm', hcm', rfl⟩
        rw [← hcc] at hmm
        exact hmm
      rw [htail, add_zero]
    · have hhead : F cm = 0 := by
        apply hF
        intro hcc
        apply hnd.1
        rw [← hcc]
        exact List.mem_map.2 ⟨(c, m), hmem, rfl⟩
      rw [hhead, zero_add]
      exact ih hnd.2 hmem

theorem buildInDegree_of_mem {sm : ModuleDict} (hnd : (keysOf sm).Nodup)
    {c : String} {m : Module} (hc : (c, m) ∈ sm) :
    buildInDegree sm c
      = ((m.prerequisites.filter (fun pre => decide (pre ∈ keysOf sm))).length : Int) := by
  rw [buildInDegree_eq]
  have := map_sum_single (M := Int) c m
    (fun cm => if c = cm.1 then
      ((cm.2.prerequisites.filter (fun pre => decide (pre ∈ keysOf sm))).length : Int) else 0)
    (fun cm h => by simp [h]) sm hnd hc
  rw [this]
  simp

theorem buildInDegree_not_mem (sm : ModuleDict) (q : String) (hq : q ∉ keysOf sm) :
    buildInDegree sm q = 0 := by
  rw [buildInDegree_eq]
  apply List.sum_eq_zero
  intro x hx
  obtain ⟨cm, hcm, rfl⟩ := List.mem_map.1 hx
  have : q ≠ cm.1 := by
    intro h
    exact hq (h ▸ List.mem_map.2 ⟨cm, hcm, rfl⟩)
  simp [this]

theorem length_filter_edge_occurrences (P : List String) (keys : List String) (a : String) :
    (P.filter (fun pre => decide (pre = a) && decide (pre ∈ keys))).length
      = if a ∈ keys then P.count a else 0 := by
  by_cases ha : a ∈ keys
  · rw [if_pos ha, List.count, ← List.countP_eq_length_filter]
    apply List.countP_congr
    intro pre _
    constructor
    · intro h
      simp only [Bool.and_eq_true, decide_eq_true_eq] at h
      simp [h.1]
    · intro h
      simp only [beq_iff_eq] at h
      subst h
      simp [ha]
  · rw [if_neg ha]
    have : P.filter (fun pre => decide (pre = a) && decide (pre ∈ keys)) = [] := by
      rw [List.filter_eq_nil_iff]
      intro pre _
      simp only [Bool.and_eq_true, decide_eq_true_eq, not_and]
      rintro rfl
      exact ha
    rw [this, List.length_nil]

/-- With distinct keys, the number of occurrences of the dependent `c` in
`buildGraph sm a` equals the number of occurrences of `a` in `c`'s
prerequisite list, provided `a` is a key (and is zero otherwise). -/
theorem count_buildGraph {sm : ModuleDict} (hnd : (keysOf sm).Nodup)
    {c : String} {m : Module} (hc : (c, m) ∈ sm) (a : String) :
    (buildGraph sm a).count c
      = if a ∈ keysOf sm then m.prerequisites.count a else 0 := by
  rw [buildGraph_eq, List.count_flatten, List.map_map]
  have step : ∀ cm : String × Module,
      (List.count c ∘ fun cm : String × Module =>
        (cm.2.prerequisites.filter
          (fun pre => decide (pre = a) && decide (pre ∈ keysOf sm))).map (fun _ => cm.1)) cm
      = (fun cm : String × Module => if c = cm.1 then
          (cm.2.prerequisites.filter
            (fun pre => decide (pre = a) && decide (pre ∈ keysOf sm))).length else 0) cm := by
    intro cm
    simp only [Function.comp_apply, List.map_const']
    rw [List.count_replicate]
    simp only [beq_iff_eq]
    by_cases h : c = cm.1
    · rw [if_pos h.symm, if_pos h]
    · rw [if_neg (fun hh => h hh.symm), if_neg h]
  rw [List.map_congr_left (fun cm _ => step cm)]
  rw [map_sum_single (M := Nat) c m _ (fun cm h => if_neg h) sm hnd hc]
  simp only [if_pos rfl]
  exact length_filter_edge_occurrences m.prerequisites (keysOf sm) a

/-- C6: graph construction (shared by `detect_cycle` and `topological_sort`)
materializes an edge `prerequisite → dependent` only when the prerequisite is
itself a key of the subset: a prerequisite outside the subset contributes no
adjacency entry, no edge, and no in-degree increment (the in-degree of every
module counts exactly its in-subset prerequisite occurrences); being total
functions, the builders raise no error on such inputs. -/
theorem C6_graph_scoping (sm : ModuleDict) (hnd : (keysOf sm).Nodup)
    (p : String) (hp : p ∉ keysOf sm) :
    buildGraph sm p = [] ∧ (∀ c, ¬ Edge sm p c) ∧
      ∀ cm ∈ sm, buildInDegree sm cm.1
        = ((cm.2.prerequisites.filter (fun pre => decide (pre ∈ keysOf sm))).length : Int) := by
  refine ⟨buildGraph_not_mem_keys sm p hp, ?_, ?_⟩
  · intro c hce
    exact hp (edge_pre_mem_keys hce)
  · intro cm hcm
    exact buildInDegree_of_mem hnd hcm

/-- Witness for C6 at a concrete subset and out-of-subset prerequisite. -/
theorem C6_graph_scoping_witness :
    buildGraph exChain "Z" = [] ∧ (∀ c, ¬ Edge exChain "Z" c) ∧
      ∀ cm ∈ exChain, buildInDegree exChain cm.1
        = ((cm.2.prerequisites.filter (fun pre => decide (pre ∈ keysOf exChain))).length : Int) :=
  C6_graph_scoping exChain (by decide) "Z" (by decide)

/-! ### Association-list lookup lemmas -/

theorem lookup_mem {α : Type} : ∀ {l : List (String × α)} {k : String} {v : α},
    List.lookup k l = some v → (k, v) ∈ l := by
  intro l
  induction l with
  | nil => intro k v h; simp [List.lookup] at h
  | cons kv l ih =>
    intro k v h
    rcases kv with ⟨k', v'⟩
    rw [List.lookup] at h
    by_cases hk : k = k'
    · subst hk
      simp at h
      subst h
      exact List.mem_cons_self _ _
    · have : (k == k') = false := by simpa using hk
      rw [this] at h
      exact List.mem_cons_of_mem _ (ih h)

theorem lookup_eq_none_iff {α : Type} : ∀ {l : List (String × α)} {k : String},
    List.lookup k l = none ↔ k ∉ l.map Prod.fst := by
  intro l
  induction l with
  | nil => intro k; simp [List.lookup]
  | cons kv l ih =>
    intro k
    rcases kv with ⟨k', v'⟩
    rw [List.lookup]
    by_cases hk : k = k'
    · subst hk
      simp
    · have hb : (k == k') = false := by simpa using hk
      rw [hb]
      simp [ih, hk]

theorem lookup_mem_keys {α : Type} {l : List (String × α)} {k : String} {v : α}
    (h : List.lookup k l = some v) : k ∈ l.map Prod.fst :=
  List.mem_map.2 ⟨(k, v), lookup_mem h, rfl⟩

theorem lookup_of_mem_nodup {α : Type} : ∀ {l : List (String × α)} {k : String} {v : α},
    (l.map Prod.fst).Nodup → (k, v) ∈ l → List.lookup k l = some v := by
  intro l
  induction l with
  | nil => intro k v _ h; cases h
  | cons kv l ih =>
    intro k v hnd h
    simp only [List.map_cons, List.nodup_cons] at hnd
    rcases List.mem_cons.1 h with heq | hmem
    · rw [← heq, List.lookup]
      simp
    · have hk : k ≠ kv.1 := by
        intro hkk
        apply hnd.1
        rw [← hkk]
        exact List.mem_map.2 ⟨(k, v), hmem, rfl⟩
      rcases kv with ⟨k', v'⟩
      rw [List.lookup]
      have hb : (k == k') = false := by simpa using hk
      rw [hb]
      exact ih hnd.2 hmem

/-! ### C10: login builds the completed-set intersected with the catalog -/

theorem keysOf_dictSet (d : ModuleDict) (k : String) (v : Module) (x : String) :
    x ∈ keysOf (dictSet d k v) ↔ x ∈ keysOf d ∨ x = k := by
  unfold dictSet
  by_cases hk : k ∈ keysOf d
  · rw [if_pos hk]
    have : keysOf (d.map (fun kv => if kv.1 = k then (k, v) else kv)) = keysOf d := by
      unfold keysOf
      rw [List.map_map]
      apply List.map_congr_left
      intro kv _
      by_cases h : kv.1 = k
      · simp [h]
      · simp [h]
    rw [this]
    constructor
    · exact Or.inl
    · rintro (h | rfl)
      · exact h
      · exact hk
  · rw [if_neg hk]
    unfold keysOf
    simp

theorem login_fold_keys (catalog : ModuleDict) :
    ∀ (codes : List String) (acc : ModuleDict) (x : String),
      x ∈ keysOf (codes.foldl
        (fun completed mod_code =>
          match List.lookup mod_code catalog with
          | some m => dictSet completed mod_code m
          | none => completed)
        acc)
      ↔ x ∈ keysOf acc ∨ (x ∈ codes ∧ x ∈ keysOf catalog) := by
  intro codes
  induction codes with
  | nil => simp
  | cons code codes ih =>
    intro acc x
    rw [List.foldl_cons]
    rcases hlk : List.lookup code catalog with _ | m
    · have hnk : code ∉ keysOf catalog := lookup_eq_none_iff.1 hlk
      rw [ih]
      constructor
      · rintro (h | h)
        · exact Or.inl h
        · exact Or.inr ⟨List.mem_cons_of_mem _ h.1, h.2⟩
      · rintro (h | ⟨hc, hk⟩)
        · exact Or.inl h
        · rcases List.mem_cons.1 hc with rfl | hc'
          · exact absurd hk hnk
          · exact Or.inr ⟨hc', hk⟩
    · have hmk : code ∈ keysOf catalog := lookup_mem_keys hlk
      rw [ih, keysOf_dictSet]
      constructor
      · rintro ((h | rfl) | h)
        · exact Or.inl h
        · exact Or.inr ⟨List.mem_cons_self _ _, hmk⟩
        · exact Or.inr ⟨List.mem_cons_of_mem _ h.1, h.2⟩
      · rintro (h | ⟨hc, hk⟩)
        · exact Or.inl (Or.inl h)
        · rcases List.mem_cons.1 hc with rfl | hc'
          · exact Or.inl (Or.inr rfl)
          · exact Or.inr ⟨hc', hk⟩

/-- C10: at login the completed-set is the student's completed code list
intersected with the catalog keys — a completed code outside the catalog is
silently dropped, so the completed-set only ever contains catalog codes, and
an out-of-catalog code (in particular an out-of-catalog prerequisite of any
module) is never a member of the completed-set. -/
theorem C10_login_completed_scoped (catalog : ModuleDict) (completed_codes : List String) :
    (∀ x, x ∈ keysOf (login_load_completed catalog completed_codes)
        ↔ x ∈ completed_codes ∧ x ∈ keysOf catalog) ∧
    ∀ (m : Module), ∀ pre ∈ m.prerequisites, pre ∉ keysOf catalog →
      pre ∉ keysOf (login_load_completed catalog completed_codes) := by
  have hmain : ∀ x, x ∈ keysOf (login_load_completed catalog completed_codes)
      ↔ x ∈ completed_codes ∧ x ∈ keysOf catalog := by
    intro x
    unfold login_load_completed
    rw [login_fold_keys]
    simp [keysOf]
  refine ⟨hmain, ?_⟩
  intro m pre _ hpre hmem
  exact hpre ((hmain pre).1 hmem).2

/-- Witness for C10 at a concrete catalog and student record: the completed
code "Q" is dropped, and the out-of-catalog prerequisite "Z" of `modBext`
is never in the completed-set. -/
theorem C10_login_completed_scoped_witness :
    ("A" ∈ keysOf (login_load_completed exChain ["A", "Q"])
        ↔ "A" ∈ ["A", "Q"] ∧ "A" ∈ keysOf exChain) ∧
    "Z" ∉ keysOf (login_load_completed exChain ["A", "Q"]) := by
  refine ⟨(C10_login_completed_scoped exChain ["A", "Q"]).1 "A", ?_⟩
  exact (C10_login_completed_scoped exChain ["A", "Q"]).2 modBext "Z" (by decide) (by decide)

/-! ### C9: eligibility computation -/

theorem eligible_fold (course : String) (completed_keys : List String) :
    ∀ (L : ModuleDict) (init : List Module) (m : Module),
      (m ∈ L.foldl
        (fun eligible cm =>
          if decide (course ∈ cm.2.tracks)
              || (relatedCoursesGet course).any (fun r => decide (r ∈ cm.2.tracks)) then
            if cm.1 ∈ completed_keys then eligible
            else if cm.2.prerequisites.all (fun pre => decide (pre ∈ completed_keys)) then
              eligible ++ [cm.2]
            else eligible
          else eligible)
        init)
      ↔ m ∈ init ∨ ∃ cm ∈ L, cm.2 = m ∧
          (decide (course ∈ cm.2.tracks)
            || (relatedCoursesGet course).any (fun r => decide (r ∈ cm.2.tracks))) = true ∧
          cm.1 ∉ completed_keys ∧
          cm.2.prerequisites.all (fun pre => decide (pre ∈ completed_keys)) = true := by
  intro L
  induction L with
  | nil => simp
  | cons cm L ih =>
    intro init m
    rw [List.foldl_cons]
    by_cases h1 : (decide (course ∈ cm.2.tracks)
        || (relatedCoursesGet course).any (fun r => decide (r ∈ cm.2.tracks))) = true
    · by_cases h2 : cm.1 ∈ completed_keys
      · rw [if_pos h1, if_pos h2, ih]
        constructor
        · rintro (h | h)
          · exact Or.inl h
          · obtain ⟨cm', hcm', hrest⟩ := h
            exact Or.inr ⟨cm', List.mem_cons_of_mem _ hcm', hrest⟩
        · rintro (h | ⟨cm', hcm', hrest⟩)
          · exact Or.inl h
          · rcases List.mem_cons.1 hcm' with rfl | hcm''
            · exact absurd h2 hrest.2.2.1
            · exact Or.inr ⟨cm', hcm'', hrest⟩
      · by_cases h3 : cm.2.prerequisites.all (fun pre => decide (pre ∈ completed_keys)) = true
        · rw [if_pos h1, if_neg h2, if_pos h3, ih]
          constructor
          · rintro (h | h)
            · rcases List.mem_append.1 h with h' | h'
              · exact Or.inl h'
              · rcases List.mem_singleton.1 h' with rfl
                exact Or.inr ⟨cm, List.mem_cons_self _ _, rfl, h1, h2, h3⟩
            · obtain ⟨cm', hcm', hrest⟩ := h
              exact Or.inr ⟨cm', List.mem_cons_of_mem _ hcm', hrest⟩
          · rintro (h | ⟨cm', hcm', hrest⟩)
            · exact Or.inl (List.mem_append.2 (Or.inl h))
            · rcases List.mem_cons.1 hcm' with rfl | hcm''
              · exact Or.inl (List.mem_append.2 (Or.inr (List.mem_singleton.2 hrest.1.symm)))
              · exact Or.inr ⟨cm', hcm'', hrest⟩
        · rw [if_pos h1, if_neg h2, if_neg h3, ih]
          constructor
          · rintro (h | h)
            · exact Or.inl h
            · obtain ⟨cm', hcm', hrest⟩ := h
              exact Or.inr ⟨cm', List.mem_cons_of_mem _ hcm', hrest⟩
          · rintro (h | ⟨cm', hcm', hrest⟩)
            · exact Or.inl h
            · rcases List.mem_cons.1 hcm' with rfl | hcm''
              · exact absurd hrest.2.2.2 h3
              · exact Or.inr ⟨cm', hcm'', hrest⟩
    · rw [if_neg h1, ih]
      constructor
      · rintro (h | h)
        · exact Or.inl h
        · obtain ⟨cm', hcm', hrest⟩ := h
          exact Or.inr ⟨cm', List.mem_cons_of_mem _ hcm', hrest⟩
      · rintro (h | ⟨cm', hcm', hrest⟩)
        · exact Or.inl h
        · rcases List.mem_cons.1 hcm' with rfl | hcm''
          · exact absurd hrest.2.1 h1
          · exact Or.inr ⟨cm', hcm'', hrest⟩

theorem track_cond_iff (course : String) (m : Module) :
    ((decide (course ∈ m.tracks)
      || (relatedCoursesGet course).any (fun r => decide (r ∈ m.tracks))) = true)
    ↔ ∃ t ∈ m.tracks, t = course ∨ t ∈ relatedCoursesGet course := by
  simp only [Bool.or_eq_true, decide_eq_true_eq, List.any_eq_true]
  constructor
  · rintro (h | ⟨r, hr, hrt⟩)
    · exact ⟨course, h, Or.inl rfl⟩
    · exact ⟨r, hrt, Or.inr hr⟩
  · rintro ⟨t, ht, rfl | hrel⟩
    · exact Or.inl ht
    · exact Or.inr ⟨t, hrel, ht⟩

/-- C9: the eligibility computation returns exactly the catalog modules that
are track-relevant for the primary course (their track set meets
`{course} ∪ related_courses[course]`), are not completed, and have all
prerequisites in the completed-set; consequently (because the completed-set
only contains catalog codes) every prerequisite of an eligible module is a
catalog code, so a module with a prerequisite absent from the catalog is
never eligible. -/
theorem C9_eligible_modules (catalog : ModuleDict) (course : String)
    (completed_keys : List String)
    (hsub : ∀ x ∈ completed_keys, x ∈ keysOf catalog) :
    (∀ m : Module, m ∈ update_eligible_modules_list catalog course completed_keys ↔
      ∃ code, (code, m) ∈ catalog ∧
        (∃ t ∈ m.tracks, t = course ∨ t ∈ relatedCoursesGet course) ∧
        code ∉ completed_keys ∧
        ∀ pre ∈ m.prerequisites, pre ∈ completed_keys) ∧
    (∀ m ∈ update_eligible_modules_list catalog course completed_keys,
      ∀ pre ∈ m.prerequisites, pre ∈ completed_keys ∧ pre ∈ keysOf catalog) := by
  have hmain : ∀ m : Module, m ∈ update_eligible_modules_list catalog course completed_keys ↔
      ∃ code, (code, m) ∈ catalog ∧
        (∃ t ∈ m.tracks, t = course ∨ t ∈ relatedCoursesGet course) ∧
        code ∉ completed_keys ∧
        ∀ pre ∈ m.prerequisites, pre ∈ completed_keys := by
    intro m
    unfold update_eligible_modules_list
    rw [eligible_fold]
    simp only [List.not_mem_nil, false_or]
    constructor
    · rintro ⟨cm, hcm, rfl, htr, hnc, hall⟩
      refine ⟨cm.1, by simpa using hcm, (track_cond_iff course cm.2).1 htr, hnc, ?_⟩
      intro pre hpre
      have := List.all_eq_true.1 hall pre hpre
      simpa using this
    · rintro ⟨code, hcm, htr, hnc, hall⟩
      refine ⟨(code, m), hcm, rfl, (track_cond_iff course m).2 htr, hnc, ?_⟩
      apply List.all_eq_true.2
      intro pre hpre
      simpa using hall pre hpre
  refine ⟨hmain, ?_⟩
  intro m hm pre hpre
  obtain ⟨code, -, -, -, hall⟩ := (hmain m).1 hm
  exact ⟨hall pre hpre, hsub pre (hall pre hpre)⟩

/-- Witness for C9 at a concrete catalog: with completed `{A}` the module B
is eligible for Data Science, and its prerequisite A is a completed catalog
code. -/
theorem C9_eligible_modules_witness :
    (modB ∈ update_eligible_modules_list exChain "Data Science" ["A"] ↔
      ∃ code, (code, modB) ∈ exChain ∧
        (∃ t ∈ modB.tracks, t = "Data Science" ∨ t ∈ relatedCoursesGet "Data Science") ∧
        code ∉ ["A"] ∧
        ∀ pre ∈ modB.prerequisites, pre ∈ ["A"]) ∧
    ("A" ∈ ["A"] ∧ "A" ∈ keysOf exChain) := by
  refine ⟨(C9_eligible_modules exChain "Data Science" ["A"] (by decide)).1 modB, ?_⟩
  exact (C9_eligible_modules exChain "Data Science" ["A"] (by decide)).2 modB
    (by decide) "A" (by decide)

/-! ### C8/C7: the path simulator -/

theorem simWalk_spec (catalog : ModuleDict) :
    ∀ (codes sim : List String) (valid : Bool) (recs : List (String × SimStatus)),
    ∃ (newRecs : List (String × SimStatus)) (validF : Bool) (simF : List String),
      simWalk catalog codes sim valid recs = (recs ++ newRecs, validF, simF) ∧
      newRecs.map Prod.fst = codes ∧
      (validF = true ↔ (valid = true ∧ ∀ pr ∈ newRecs, pr.2 = SimStatus.accepted)) ∧
      (∀ x, x ∈ simF ↔ x ∈ sim ∨ (x, SimStatus.accepted) ∈ newRecs) ∧
      (∀ pr ∈ newRecs, (pr.2 = SimStatus.notFound ↔ pr.1 ∉ keysOf catalog)) ∧
      (∀ (i : Nat) (hi : i < newRecs.length), ∃ simAt : List String,
        (∀ x, x ∈ simAt ↔ x ∈ sim ∨ (x, SimStatus.accepted) ∈ newRecs.take i) ∧
        (List.lookup (newRecs.get ⟨i, hi⟩).1 catalog = none →
          (newRecs.get ⟨i, hi⟩).2 = SimStatus.notFound) ∧
        ∀ m, List.lookup (newRecs.get ⟨i, hi⟩).1 catalog = some m →
          ((m.prerequisites.filter (fun pre => decide (pre ∉ simAt))).isEmpty = true →
            (newRecs.get ⟨i, hi⟩).2 = SimStatus.accepted) ∧
          (¬(m.prerequisites.filter (fun pre => decide (pre ∉ simAt))).isEmpty = true →
            (newRecs.get ⟨i, hi⟩).2 = SimStatus.blocked
              (m.prerequisites.filter (fun pre => decide (pre ∉ simAt))))) := by
  intro codes
  induction codes with
  | nil =>
    intro sim valid recs
    refine ⟨[], valid, sim, by simp [simWalk], by simp, by simp, by simp, by simp, ?_⟩
    intro i hi
    exact absurd hi (by simp)
  | cons code rest ih =>
    intro sim valid recs
    rcases hlk : List.lookup code catalog with _ | m
    · have hnk : code ∉ keysOf catalog := lookup_eq_none_iff.1 hlk
      obtain ⟨newRecs', validF, simF, heq, hmap, hvalid, hsim, hnf, hclass⟩ :=
        ih sim false (recs ++ [(code, SimStatus.notFound)])
      refine ⟨(code, SimStatus.notFound) :: newRecs', validF, simF, ?_, ?_, ?_, ?_, ?_, ?_⟩
      · rw [simWalk, hlk, heq]
        simp
      · simpa using hmap
      · rw [hvalid]
        constructor
        · rintro ⟨h, -⟩; cases h
        · rintro ⟨-, hall⟩
          have := hall (code, SimStatus.notFound) (List.mem_cons_self _ _)
          cases this
      · intro x
        rw [hsim x]
        constructor
        · rintro (h | h)
          · exact Or.inl h
          · exact Or.inr (List.mem_cons_of_mem _ h)
        · rintro (h | h)
          · exact Or.inl h
          · rcases List.mem_cons.1 h with hcontra | h'
            · cases hcontra
            · exact Or.inr h'
      · intro pr hpr
        rcases List.mem_cons.1 hpr with rfl | h'
        · simpa using hnk
        · exact hnf pr h'
      · intro i hi
        cases i with
        | zero =>
          refine ⟨sim, ?_, ?_, ?_⟩
          · intro x
            simp
          · intro _
            rfl
          · intro m' hm'
            have hm2 : List.lookup code catalog = some m' := hm'
            rw [hlk] at hm2
            exact Option.noConfusion hm2
        | succ j =>
          have hj : j < newRecs'.length := by
            have h := hi
            simp only [List.length_cons] at h
            omega
          obtain ⟨simAt, hA, hB, hC⟩ := hclass j hj
          refine ⟨simAt, ?_, hB, hC⟩
          intro x
          rw [hA x, List.take_succ_cons]
          simp only [List.mem_cons, Prod.mk.injEq]
          constructor
          · rintro (h | h)
            · exact Or.inl h
            · exact Or.inr (Or.inr h)
          · rintro (h | h | h)
            · exact Or.inl h
            · exact absurd h.2 (by intro hc; cases hc)
            · exact Or.inr h
    · have hmk : code ∈ keysOf catalog := lookup_mem_keys hlk
      by_cases hmiss :
          (m.prerequisites.filter (fun pre => decide (pre ∉ sim))).isEmpty = true
      · obtain ⟨newRecs', validF, simF, heq, hmap, hvalid, hsim, hnf, hclass⟩ :=
          ih (sim.insert code) valid (recs ++ [(code, SimStatus.accepted)])
        refine ⟨(code, SimStatus.accepted) :: newRecs', validF, simF, ?_, ?_, ?_, ?_, ?_, ?_⟩
        · rw [simWalk, hlk]
          simp only [hmiss, if_true]
          rw [heq]
          simp
        · simpa using hmap
        · rw [hvalid]
          constructor
          · rintro ⟨hv, hall⟩
            refine ⟨hv, ?_⟩
            intro pr hpr
            rcases List.mem_cons.1 hpr with rfl | h'
            · rfl
            · exact hall pr h'
          · rintro ⟨hv, hall⟩
            exact ⟨hv, fun pr hpr => hall pr (List.mem_cons_of_mem _ hpr)⟩
        · intro x
          rw [hsim x]
          rw [List.mem_insert_iff]
          constructor
          · rintro ((rfl | h) | h)
            · exact Or.inr (List.mem_cons_self _ _)
            · exact Or.inl h
            · exact Or.inr (List.mem_cons_of_mem _ h)
          · rintro (h | h)
            · exact Or.inl (Or.inr h)
            · rcases List.mem_cons.1 h with heq' | h'
              · exact Or.inl (Or.inl (congrArg Prod.fst heq'))
              · exact Or.inr h'
        · intro pr hpr
          rcases List.mem_cons.1 hpr with rfl | h'
          · simp [hmk]
          · exact hnf pr h'
        · intro i hi
          cases i with
          | zero =>
            refine ⟨sim, ?_, ?_, ?_⟩
            · intro x
              simp
            · intro hcon
              have hc2 : List.lookup code catalog = none := hcon
              rw [hlk] at hc2
              exact Option.noConfusion hc2
            · intro m' hm'
              have hm2 : List.lookup code catalog = some m' := hm'
              rw [hlk] at hm2
              injection hm2 with hm2
              subst hm2
              refine ⟨fun _ => rfl, fun hcon => absurd hmiss hcon⟩
          | succ j =>
            have hj : j < newRecs'.length := by
              have h := hi
              simp only [List.length_cons] at h
              omega
            obtain ⟨simAt, hA, hB, hC⟩ := hclass j hj
            refine ⟨simAt, ?_, hB, hC⟩
            intro x
            rw [hA x, List.take_succ_cons, List.mem_insert_iff]
            simp only [List.mem_cons, Prod.mk.injEq]
            constructor
            · rintro ((rfl | h) | h)
              · exact Or.inr (Or.inl ⟨rfl, trivial⟩)
              · exact Or.inl h
              · exact Or.inr (Or.inr h)
            · rintro (h | h | h)
              · exact Or.inl (Or.inr h)
              · exact Or.inl (Or.inl h.1)
              · exact Or.inr h
      · obtain ⟨newRecs', validF, simF, heq, hmap, hvalid, hsim, hnf, hclass⟩ :=
          ih sim false
            (recs ++ [(code, SimStatus.blocked
              (m.prerequisites.filter (fun pre => decide (pre ∉ sim))))])
        refine ⟨(code, SimStatus.blocked
          (m.prerequisites.filter (fun pre => decide (pre ∉ sim)))) :: newRecs',
          validF, simF, ?_, ?_, ?_, ?_, ?_, ?_⟩
        · rw [simWalk, hlk]
          simp only [hmiss, if_false]
          rw [heq]
          simp
        · simpa using hmap
        · rw [hvalid]
          constructor
          · rintro ⟨h, -⟩; cases h
          · rintro ⟨-, hall⟩
            have := hall _ (List.mem_cons_self _ _)
            cases this
        · intro x
          rw [hsim x]
          constructor
          · rintro (h | h)
            · exact Or.inl h
            · exact Or.inr (List.mem_cons_of_mem _ h)
          · rintro (h | h)
            · exact Or.inl h
            · rcases List.mem_cons.1 h with hcontra | h'
              · cases hcontra
              · exact Or.inr h'
        · intro pr hpr
          rcases List.mem_cons.1 hpr with rfl | h'
          · constructor
            · intro h; cases h
            · intro h; exact absurd hmk h
          · exact hnf pr h'
        · intro i hi
          cases i with
          | zero =>
            refine ⟨sim, ?_, ?_, ?_⟩
            · intro x
              simp
            · intro hcon
              have hc2 : List.lookup code catalog = none := hcon
              rw [hlk] at hc2
              exact Option.noConfusion hc2
            · intro m' hm'
              have hm2 : List.lookup code catalog = some m' := hm'
              rw [hlk] at hm2
              injection hm2 with hm2
              subst hm2
              refine ⟨fun hcon => absurd hcon hmiss, fun _ => rfl⟩
          | succ j =>
            have hj : j < newRecs'.length := by
              have h := hi
              simp only [List.length_cons] at h
              omega
            obtain ⟨simAt, hA, hB, hC⟩ := hclass j hj
            refine ⟨simAt, ?_, hB, hC⟩
            intro x
            rw [hA x, List.take_succ_cons]
            simp only [List.mem_cons, Prod.mk.injEq]
            constructor
            · rintro (h | h)
              · exact Or.inl h
              · exact Or.inr (Or.inr h)
            · rintro (h | h | h)
              · exact Or.inl h
              · exact absurd h.2 (by intro hc; cases hc)
              · exact Or.inr h

/-- C8: the simulation's overall validity is true iff every input code was
accepted (no `Blocked`, no `NotFound`); each input code produces exactly one
record in order; the simulated-completed working copy ends as the real
completed-set plus exactly the accepted codes (blocked and not-found codes
are never added); a code is recorded `NotFound` exactly when it is absent
from the catalog; and each record is classified against the working copy at
that point (the real completed-set plus the previously accepted codes):
a catalog-present code with no missing prerequisite there is recorded
`Accepted`, and one with missing prerequisites is recorded `Blocked` with
exactly that missing list. -/
theorem C8_simulation_validity (module_codes : List String) (catalog : ModuleDict)
    (completed_keys : List String) :
    (run_simulation module_codes catalog completed_keys).records.map Prod.fst = module_codes ∧
    ((run_simulation module_codes catalog completed_keys).valid = true ↔
      ∀ pr ∈ (run_simulation module_codes catalog completed_keys).records,
        pr.2 = SimStatus.accepted) ∧
    (∀ x, x ∈ (run_simulation module_codes catalog completed_keys).simulated_completed ↔
      x ∈ completed_keys ∨
        (x, SimStatus.accepted) ∈ (run_simulation module_codes catalog completed_keys).records) ∧
    (∀ pr ∈ (run_simulation module_codes catalog completed_keys).records,
      (pr.2 = SimStatus.notFound ↔ pr.1 ∉ keysOf catalog)) ∧
    (∀ (i : Nat) (hi : i < (run_simulation module_codes catalog completed_keys).records.length),
      ∃ simAt : List String,
        (∀ x, x ∈ simAt ↔ x ∈ completed_keys ∨ (x, SimStatus.accepted) ∈
          (run_simulation module_codes catalog completed_keys).records.take i) ∧
        (List.lookup ((run_simulation module_codes catalog completed_keys).records.get
            ⟨i, hi⟩).1 catalog = none →
          ((run_simulation module_codes catalog completed_keys).records.get ⟨i, hi⟩).2
            = SimStatus.notFound) ∧
        ∀ m, List.lookup ((run_simulation module_codes catalog completed_keys).records.get
            ⟨i, hi⟩).1 catalog = some m →
          ((m.prerequisites.filter (fun pre => decide (pre ∉ simAt))).isEmpty = true →
            ((run_simulation module_codes catalog completed_keys).records.get ⟨i, hi⟩).2
              = SimStatus.accepted) ∧
          (¬(m.prerequisites.filter (fun pre => decide (pre ∉ simAt))).isEmpty = true →
            ((run_simulation module_codes catalog completed_keys).records.get ⟨i, hi⟩).2
              = SimStatus.blocked
                (m.prerequisites.filter (fun pre => decide (pre ∉ simAt))))) := by
  obtain ⟨newRecs, validF, simF, heq, hmap, hvalid, hsim, hnf, hclass⟩ :=
    simWalk_spec catalog module_codes completed_keys true []
  have hrecs : (run_simulation module_codes catalog completed_keys).records = newRecs := by
    unfold run_simulation
    rw [heq]
    simp
  have hval : (run_simulation module_codes catalog completed_keys).valid = validF := by
    unfold run_simulation
    rw [heq]
  have hsimc : (run_simulation module_codes catalog completed_keys).simulated_completed = simF := by
    unfold run_simulation
    rw [heq]
  refine ⟨?_, ?_, ?_, ?_, ?_⟩
  · rw [hrecs]; exact hmap
  · rw [hval, hrecs, hvalid]
    simp
  · intro x
    rw [hsimc, hrecs]
    exact hsim x
  · intro pr hpr
    rw [hrecs] at hpr
    exact hnf pr hpr
  · intro i
    rw [hrecs]
    intro hi
    exact hclass i hi

/-- Witness for C8 at the specification's Example 3 (`path [A, C]`,
completed `{}`): A accepted, C blocked, so validity is false and only A is
added to the working copy; the second record (index 1) is classified
against the working copy at that point. -/
theorem C8_simulation_validity_witness :
    (run_simulation ["A", "C"] exChain []).records.map Prod.fst = ["A", "C"] ∧
    ((run_simulation ["A", "C"] exChain []).valid = true ↔
      ∀ pr ∈ (run_simulation ["A", "C"] exChain []).records, pr.2 = SimStatus.accepted) ∧
    ("B" ∈ (run_simulation ["A", "C"] exChain []).simulated_completed ↔
      "B" ∈ ([] : List String) ∨
        ("B", SimStatus.accepted) ∈ (run_simulation ["A", "C"] exChain []).records) ∧
    ∃ simAt : List String,
      (∀ x, x ∈ simAt ↔ x ∈ ([] : List String) ∨ (x, SimStatus.accepted) ∈
        (run_simulation ["A", "C"] exChain []).records.take 1) ∧
      (List.lookup ((run_simulation ["A", "C"] exChain []).records.get
          ⟨1, by decide⟩).1 exChain = none →
        ((run_simulation ["A", "C"] exChain []).records.get ⟨1, by decide⟩).2
          = SimStatus.notFound) ∧
      ∀ m, List.lookup ((run_simulation ["A", "C"] exChain []).records.get
          ⟨1, by decide⟩).1 exChain = some m →
        ((m.prerequisites.filter (fun pre => decide (pre ∉ simAt))).isEmpty = true →
          ((run_simulation ["A", "C"] exChain []).records.get ⟨1, by decide⟩).2
            = SimStatus.accepted) ∧
        (¬(m.prerequisites.filter (fun pre => decide (pre ∉ simAt))).isEmpty = true →
          ((run_simulation ["A", "C"] exChain []).records.get ⟨1, by decide⟩).2
            = SimStatus.blocked
              (m.prerequisites.filter (fun pre => decide (pre ∉ simAt)))) := by
  obtain ⟨h1, h2, h3, -, h5⟩ := C8_simulation_validity ["A", "C"] exChain []
  exact ⟨h1, h2, h3 "B", h5 1 (by decide)⟩

/-- C7 counterexample: the credit total counts every occurrence of an input
code, not each distinct code once — on path `[A, A]` the code reports 6
credits while the distinct-code sum is 3. -/
theorem C7_total_credits_counterexample :
    (run_simulation ["A", "A"] exChain []).total_credits = 6 ∧
    ((["A", "A"].dedup.filter (fun code => decide (code ∈ keysOf exChain))).map
      (fun code => ((List.lookup code exChain).map Module.credits).getD 0)).sum = 3 := by
  constructor
  · decide
  · decide

/-- C7 (amended): the simulation's credit total is the sum, over every
occurrence of an input code that exists in the catalog (a duplicated code is
counted each time it appears), of that module's credits; codes absent from
the catalog contribute nothing, and the total is independent of the
completed-set, so blocked modules' credits still count. -/
theorem C7_total_credits_per_occurrence (module_codes : List String) (catalog : ModuleDict)
    (completed_keys completed_keys2 : List String) :
    (run_simulation module_codes catalog completed_keys).total_credits
      = (module_codes.map
          (fun code => if code ∈ keysOf catalog then
            ((List.lookup code catalog).map Module.credits).getD 0 else 0)).sum ∧
    (run_simulation module_codes catalog completed_keys).total_credits
      = (run_simulation module_codes catalog completed_keys2).total_credits := by
  constructor
  · show ((module_codes.filter (fun code => decide (code ∈ keysOf catalog))).map
        (fun code => ((List.lookup code catalog).map Module.credits).getD 0)).sum = _
    induction module_codes with
    | nil => simp
    | cons code rest ihc =>
      by_cases h : code ∈ keysOf catalog
      · simp only [List.filter_cons, List.map_cons, List.sum_cons, h]
        simp [ihc]
      · have hd : decide (code ∈ keysOf catalog) = false := by simpa using h
        simp only [List.filter_cons, hd, List.map_cons, List.sum_cons]
        rw [if_neg h, zero_add]
        exact ihc
  · rfl

/-! ### C1/C2: Kahn's algorithm -/

theorem exists_of_mem_keys {sm : ModuleDict} {c : String} (h : c ∈ keysOf sm) :
    ∃ m, (c, m) ∈ sm := by
  obtain ⟨cm, hcm, rfl⟩ := List.mem_map.1 h
  exact ⟨cm.2, hcm⟩

theorem mem_keys_of_mem {sm : ModuleDict} {c : String} {m : Module} (h : (c, m) ∈ sm) :
    c ∈ keysOf sm :=
  List.mem_map.2 ⟨(c, m), h, rfl⟩

theorem acyclic_of_edge_rank (sm : ModuleDict) (rank : String → Nat)
    (h : ∀ a b, Edge sm a b → rank a < rank b) : Acyclic sm := by
  intro c hc
  have key : ∀ x y, Relation.TransGen (Edge sm) x y → rank x < rank y := by
    intro x y hxy
    induction hxy with
    | single hs => exact h _ _ hs
    | tail _ hE ih => exact lt_trans ih (h _ _ hE)
  exact lt_irrefl _ (key c c hc)

theorem acyclic_of_edge_rank_gt (sm : ModuleDict) (rank : String → Nat)
    (h : ∀ a b, Edge sm a b → rank b < rank a) : Acyclic sm := by
  intro c hc
  have key : ∀ x y, Relation.TransGen (Edge sm) x y → rank y < rank x := by
    intro x y hxy
    induction hxy with
    | single hs => exact h _ _ hs
    | tail _ hE ih => exact lt_trans (h _ _ hE) ih
  exact lt_irrefl _ (key c c hc)

theorem filter_len_zero_iff (P : List String) (keys ord : List String) :
    (((P.filter (fun pre => decide (pre ∈ keys) && decide (pre ∉ ord))).length : Int) = 0
      ↔ ∀ pre ∈ P, pre ∈ keys → pre ∈ ord) := by
  rw [Int.natCast_eq_zero, List.length_eq_zero, List.filter_eq_nil_iff]
  constructor
  · intro h pre hpre hk
    by_contra hno
    have := h pre hpre
    simp [hk, hno] at this
  · intro h pre hpre
    simp only [Bool.and_eq_true, decide_eq_true_eq, not_and]
    intro hk
    simp [h pre hpre hk]

theorem length_filter_exclude (P : List String) (keys ord : List String) (node : String)
    (hk : node ∈ keys) (hno : node ∉ ord) :
    ((P.filter (fun pre => decide (pre ∈ keys) && decide (pre ∉ ord ++ [node]))).length : Int)
      = ((P.filter (fun pre => decide (pre ∈ keys) && decide (pre ∉ ord))).length : Int)
        - P.count node := by
  induction P with
  | nil => simp
  | cons x P ih =>
    by_cases hx : x = node
    · subst hx
      have h1 : (decide (x ∈ keys) && decide (x ∉ ord ++ [x])) = false := by simp
      have h2 : (decide (x ∈ keys) && decide (x ∉ ord)) = true := by simp [hk, hno]
      rw [List.filter_cons, List.filter_cons, h1, h2, List.count_cons_self]
      simp only [Bool.false_eq_true, if_false, if_true, List.length_cons]
      push_cast
      rw [ih]
      ring
    · have hpred : (decide (x ∈ keys) && decide (x ∉ ord ++ [node]))
          = (decide (x ∈ keys) && decide (x ∉ ord)) := by
        by_cases hxk : x ∈ keys <;> by_cases hxo : x ∈ ord <;> simp [hxk, hxo, hx]
      have hcnt : (x :: P).count node = P.count node :=
        List.count_cons_of_ne (fun h => hx h.symm) P
      rw [List.filter_cons, List.filter_cons, hpred, hcnt]
      by_cases hp : (decide (x ∈ keys) && decide (x ∉ ord)) = true
      · rw [if_pos hp, if_pos hp]
        simp only [List.length_cons]
        push_cast
        omega
      · rw [if_neg hp, if_neg hp]
        exact ih

theorem processNeighbors_spec : ∀ (nbs : List String) (f : String → Int) (queue : List String),
    ∃ news : List String,
      processNeighbors nbs f queue = (fun c => f c - nbs.count c, queue ++ news) ∧
      news.Nodup ∧
      ∀ c, c ∈ news ↔ (1 ≤ f c ∧ f c ≤ nbs.count c) := by
  intro nbs
  induction nbs with
  | nil =>
    intro f queue
    refine ⟨[], ?_, List.nodup_nil, ?_⟩
    · rw [processNeighbors]
      refine Prod.ext ?_ ?_
      · funext c
        simp
      · simp
    · intro c
      simp only [List.not_mem_nil, List.count_nil, false_iff, not_and, Nat.cast_zero]
      intro h1
      omega
  | cons nb nbs ih =>
    intro f queue
    rw [processNeighbors]
    have hfnb : (fun c => if c = nb then f nb - 1 else f c) nb = f nb - 1 := by simp
    by_cases hcase : f nb - 1 = 0
    · rw [if_pos (by simpa using hcase)]
      obtain ⟨news', heq, hnd, hmem⟩ := ih (fun c => if c = nb then f nb - 1 else f c)
        (queue ++ [nb])
      refine ⟨nb :: news', ?_, ?_, ?_⟩
      · rw [heq]
        refine Prod.ext ?_ ?_
        · funext c
          simp only
          by_cases hc : c = nb
          · subst hc
            rw [if_pos rfl, List.count_cons_self]
            push_cast
            ring
          · rw [if_neg hc, List.count_cons_of_ne hc]
        · simp
      · refine List.nodup_cons.2 ⟨?_, hnd⟩
        intro hcontra
        have := (hmem nb).1 hcontra
        have hred : (if (nb : String) = nb then f nb - 1 else f nb) = f nb - 1 := if_pos rfl
        rw [hred] at this
        omega
      · intro c
        by_cases hc : c = nb
        · subst hc
          constructor
          · intro _
            have hfc : f c = 1 := by omega
            rw [hfc, List.count_cons_self]
            refine ⟨le_refl 1, ?_⟩
            push_cast
            omega
          · intro _
            exact List.mem_cons_self _ _
        · rw [List.mem_cons]
          rw [List.count_cons_of_ne hc]
          constructor
          · rintro (hcontra | h)
            · exact absurd hcontra hc
            · have := (hmem c).1 h
              rw [if_neg hc] at this
              exact this
          · intro h
            refine Or.inr ((hmem c).2 ?_)
            rw [if_neg hc]
            exact h
    · rw [if_neg (by simpa using hcase)]
      obtain ⟨news', heq, hnd, hmem⟩ := ih (fun c => if c = nb then f nb - 1 else f c) queue
      refine ⟨news', ?_, hnd, ?_⟩
      · rw [heq]
        refine Prod.ext ?_ ?_
        · funext c
          simp only
          by_cases hc : c = nb
          · subst hc
            rw [if_pos rfl, List.count_cons_self]
            push_cast
            ring
          · rw [if_neg hc, List.count_cons_of_ne hc]
        · rfl
      · intro c
        rw [hmem c]
        by_cases hc : c = nb
        · subst hc
          rw [if_pos rfl, List.count_cons_self]
          push_cast
          constructor
          · intro h
            omega
          · intro h
            omega
        · rw [if_neg hc, List.count_cons_of_ne hc]

theorem kahn_init (sm : ModuleDict) (hnd : (keysOf sm).Nodup) :
    KahnInv sm ((keysOf sm).filter (fun code => decide (buildInDegree sm code = 0))) []
      (buildInDegree sm) := by
  constructor
  · exact List.nodup_nil
  · exact hnd.filter _
  · intro c _
    exact List.not_mem_nil c
  · intro c hc
    exact absurd hc (List.not_mem_nil c)
  · intro c hc
    exact (List.mem_filter.1 hc).1
  · intro cm hcm
    rw [buildInDegree_of_mem hnd hcm]
    have hfil : cm.2.prerequisites.filter
        (fun pre => decide (pre ∈ keysOf sm) && decide (pre ∉ ([] : List String)))
        = cm.2.prerequisites.filter (fun pre => decide (pre ∈ keysOf sm)) := by
      apply List.filter_congr
      intro pre _
      simp
    rw [hfil]
  · intro cm hcm
    have hkm : cm.1 ∈ keysOf sm := List.mem_map.2 ⟨cm, hcm, rfl⟩
    constructor
    · rintro (h | h)
      · cases h
      · have hz := (List.mem_filter.1 h).2
        have hz' : buildInDegree sm cm.1 = 0 := by simpa using hz
        rw [buildInDegree_of_mem hnd hcm] at hz'
        have hfil : cm.2.prerequisites.filter (fun pre => decide (pre ∈ keysOf sm)) = [] :=
          List.length_eq_zero.1 (Int.natCast_eq_zero.1 hz')
        intro pre hpre hk
        exfalso
        have hmem : pre ∈ cm.2.prerequisites.filter (fun pre => decide (pre ∈ keysOf sm)) :=
          List.mem_filter.2 ⟨hpre, by simpa using hk⟩
        rw [hfil] at hmem
        exact List.not_mem_nil pre hmem
    · intro hAcm
      refine Or.inr (List.mem_filter.2 ⟨hkm, ?_⟩)
      have hfil : cm.2.prerequisites.filter (fun pre => decide (pre ∈ keysOf sm)) = [] := by
        rw [List.filter_eq_nil_iff]
        intro pre hpre
        simp only [decide_eq_true_eq]
        intro hk
        exact absurd (hAcm pre hpre hk) (List.not_mem_nil pre)
      simp only [decide_eq_true_eq]
      rw [buildInDegree_of_mem hnd hcm, hfil]
      simp
  · intro cm _ h
    cases h

theorem kahn_step (sm : ModuleDict) (hnd : (keysOf sm).Nodup) (node : String)
    (rest ordering : List String) (f : String → Int)
    (inv : KahnInv sm (node :: rest) ordering f) :
    KahnInv sm (processNeighbors (buildGraph sm node) f rest).2 (ordering ++ [node])
      (processNeighbors (buildGraph sm node) f rest).1 := by
  obtain ⟨news, heq, hnewsnd, hnews⟩ := processNeighbors_spec (buildGraph sm node) f rest
  have hnodek : node ∈ keysOf sm := inv.q_keys node (List.mem_cons_self _ _)
  have hnodeord : node ∉ ordering := inv.disj node (List.mem_cons_self _ _)
  have hrestnd : rest.Nodup := (List.nodup_cons.1 inv.q_nodup).2
  have hnoderest : node ∉ rest := (List.nodup_cons.1 inv.q_nodup).1
  have hf2 : ∀ cm : String × Module, cm ∈ sm →
      f cm.1 - ((buildGraph sm node).count cm.1 : Int)
        = ((cm.2.prerequisites.filter
            (fun pre => decide (pre ∈ keysOf sm) && decide (pre ∉ ordering ++ [node]))).length
            : Int) := by
    intro cm hcm
    rcases cm with ⟨c, m⟩
    rw [count_buildGraph hnd hcm node, if_pos hnodek, inv.fval ⟨c, m⟩ hcm,
      length_filter_exclude m.prerequisites (keysOf sm) ordering node hnodek hnodeord]
  have hfnn : ∀ cm : String × Module, cm ∈ sm → 0 ≤ f cm.1 := by
    intro cm hcm
    rw [inv.fval cm hcm]
    positivity
  have hA : ∀ cm : String × Module, cm ∈ sm →
      (f cm.1 = 0 ↔ ∀ pre ∈ cm.2.prerequisites, pre ∈ keysOf sm → pre ∈ ordering) := by
    intro cm hcm
    rw [inv.fval cm hcm]
    exact filter_len_zero_iff _ _ _
  have hA2 : ∀ cm : String × Module, cm ∈ sm →
      (f cm.1 - ((buildGraph sm node).count cm.1 : Int) = 0 ↔
        ∀ pre ∈ cm.2.prerequisites, pre ∈ keysOf sm → pre ∈ ordering ++ [node]) := by
    intro cm hcm
    rw [hf2 cm hcm]
    exact filter_len_zero_iff _ _ _
  have hnewskeys : ∀ c ∈ news, c ∈ keysOf sm := by
    intro c hc
    obtain ⟨h1, h2⟩ := (hnews c).1 hc
    have hcpos : 0 < (buildGraph sm node).count c := by
      by_contra hz
      push_neg at hz
      have hz' : (buildGraph sm node).count c = 0 := Nat.le_zero.1 hz
      rw [hz'] at h2
      push_cast at h2
      omega
    have hcmem : c ∈ buildGraph sm node := List.count_pos_iff.1 hcpos
    exact edge_code_mem_keys (show Edge sm node c from hcmem)
  have hnews_f1 : ∀ c ∈ news, 1 ≤ f c := fun c hc => ((hnews c).1 hc).1
  have hnot_seen : ∀ cm : String × Module, cm ∈ sm →
      (cm.1 ∈ ordering ∨ cm.1 = node ∨ cm.1 ∈ rest) → f cm.1 = 0 := by
    intro cm hcm hseen
    refine (hA cm hcm).2 ((inv.mem_iff cm hcm).1 ?_)
    rcases hseen with h | h | h
    · exact Or.inl h
    · refine Or.inr ?_
      rw [h]
      exact List.mem_cons_self _ _
    · exact Or.inr (List.mem_cons_of_mem _ h)
  have hnews_disj : ∀ c ∈ news, c ∉ ordering ∧ c ≠ node ∧ c ∉ rest := by
    intro c hc
    obtain ⟨m, hm⟩ := exists_of_mem_keys (hnewskeys c hc)
    have h1 := hnews_f1 c hc
    refine ⟨?_, ?_, ?_⟩
    · intro h
      have h0 : f c = 0 := hnot_seen (c, m) hm (Or.inl h)
      omega
    · intro h
      have h0 : f c = 0 := hnot_seen (c, m) hm (Or.inr (Or.inl h))
      omega
    · intro h
      have h0 : f c = 0 := hnot_seen (c, m) hm (Or.inr (Or.inr h))
      omega
  rw [heq]
  have hordnd : (ordering ++ [node]).Nodup := by
    rw [List.nodup_append]
    refine ⟨inv.ord_nodup, List.nodup_singleton _, ?_⟩
    intro a ha hb
    rw [List.mem_singleton] at hb
    subst hb
    exact hnodeord ha
  have hqnd : (rest ++ news).Nodup := by
    rw [List.nodup_append]
    exact ⟨hrestnd, hnewsnd, fun a ha hb => (hnews_disj a hb).2.2 ha⟩
  have hdisj : ∀ c ∈ rest ++ news, c ∉ ordering ++ [node] := by
    intro c hc
    rw [List.mem_append, List.mem_singleton]
    push_neg
    rcases List.mem_append.1 hc with h | h
    · refine ⟨inv.disj c (List.mem_cons_of_mem _ h), ?_⟩
      intro hcn
      apply hnoderest
      rw [← hcn]
      exact h
    · exact ⟨(hnews_disj c h).1, (hnews_disj c h).2.1⟩
  have hordk : ∀ c ∈ ordering ++ [node], c ∈ keysOf sm := by
    intro c hc
    rcases List.mem_append.1 hc with h | h
    · exact inv.ord_keys c h
    · rw [List.mem_singleton] at h
      subst h
      exact hnodek
  have hqk : ∀ c ∈ rest ++ news, c ∈ keysOf sm := by
    intro c hc
    rcases List.mem_append.1 hc with h | h
    · exact inv.q_keys c (List.mem_cons_of_mem _ h)
    · exact hnewskeys c h
  have hmemiff : ∀ cm ∈ sm, (cm.1 ∈ ordering ++ [node] ∨ cm.1 ∈ rest ++ news) ↔
      (∀ pre ∈ cm.2.prerequisites, pre ∈ keysOf sm → pre ∈ ordering ++ [node]) := by
    intro cm hcm
    constructor
    · intro h
      have hold : (cm.1 ∈ ordering ∨ cm.1 ∈ node :: rest) ∨ cm.1 ∈ news := by
        rcases h with h | h
        · rcases List.mem_append.1 h with h' | h'
          · exact Or.inl (Or.inl h')
          · rw [List.mem_singleton] at h'
            refine Or.inl (Or.inr ?_)
            rw [h']
            exact List.mem_cons_self _ _
        · rcases List.mem_append.1 h with h' | h'
          · exact Or.inl (Or.inr (List.mem_cons_of_mem _ h'))
          · exact Or.inr h'
      rcases hold with h' | h'
      · have hAcm := (inv.mem_iff cm hcm).1 h'
        intro pre hpre hk
        exact List.mem_append.2 (Or.inl (hAcm pre hpre hk))
      · obtain ⟨h1, h2⟩ := (hnews cm.1).1 h'
        have hnn2 : 0 ≤ f cm.1 - ((buildGraph sm node).count cm.1 : Int) := by
          rw [hf2 cm hcm]
          positivity
        have hz : f cm.1 - ((buildGraph sm node).count cm.1 : Int) = 0 := by omega
        exact (hA2 cm hcm).1 hz
    · intro hA2cm
      by_contra hcontra
      push_neg at hcontra
      obtain ⟨hno, hnq⟩ := hcontra
      have h1 : cm.1 ∉ ordering := fun h => hno (List.mem_append.2 (Or.inl h))
      have h2 : cm.1 ≠ node := fun h => hno (List.mem_append.2 (Or.inr (List.mem_singleton.2 h)))
      have h3 : cm.1 ∉ rest := fun h => hnq (List.mem_append.2 (Or.inl h))
      have h4 : cm.1 ∉ news := fun h => hnq (List.mem_append.2 (Or.inr h))
      have hnold : ¬(cm.1 ∈ ordering ∨ cm.1 ∈ node :: rest) := by
        rintro (h | h)
        · exact h1 h
        · rcases List.mem_cons.1 h with h' | h'
          · exact h2 h'
          · exact h3 h'
      have hfne : f cm.1 ≠ 0 := fun hz => hnold ((inv.mem_iff cm hcm).2 ((hA cm hcm).1 hz))
      have hfge : 1 ≤ f cm.1 := by
        have := hfnn cm hcm
        omega
      have hgt : ¬(f cm.1 ≤ ((buildGraph sm node).count cm.1 : Int)) := by
        intro hle
        exact h4 ((hnews cm.1).2 ⟨hfge, hle⟩)
      have hz : f cm.1 - ((buildGraph sm node).count cm.1 : Int) = 0 := (hA2 cm hcm).2 hA2cm
      omega
  have hsorted : ∀ cm ∈ sm, cm.1 ∈ ordering ++ [node] →
      ∀ pre ∈ cm.2.prerequisites, pre ∈ keysOf sm →
        pre ∈ ordering ++ [node] ∧
          (ordering ++ [node]).indexOf pre < (ordering ++ [node]).indexOf cm.1 := by
    intro cm hcm hmem pre hpre hk
    rcases List.mem_append.1 hmem with h | h
    · obtain ⟨hp1, hp2⟩ := inv.sorted cm hcm h pre hpre hk
      refine ⟨List.mem_append.2 (Or.inl hp1), ?_⟩
      rw [List.indexOf_append_of_mem hp1, List.indexOf_append_of_mem h]
      exact hp2
    · rw [List.mem_singleton] at h
      have hABase : cm.1 ∈ ordering ∨ cm.1 ∈ node :: rest := by
        refine Or.inr ?_
        rw [h]
        exact List.mem_cons_self _ _
      have hAcm := (inv.mem_iff cm hcm).1 hABase
      have hpord : pre ∈ ordering := hAcm pre hpre hk
      refine ⟨List.mem_append.2 (Or.inl hpord), ?_⟩
      rw [List.indexOf_append_of_mem hpord, h, List.indexOf_append_of_not_mem hnodeord]
      have hlt : ordering.indexOf pre < ordering.length := List.indexOf_lt_length.2 hpord
      have hzero : ([node].indexOf node) = 0 := by simp
      omega
  exact ⟨hordnd, hqnd, hdisj, hordk, hqk, hf2, hmemiff, hsorted⟩

theorem kahnLoop_spec (sm : ModuleDict) (hnd : (keysOf sm).Nodup) :
    ∀ (fuel : Nat) (queue ordering : List String) (f : String → Int),
      KahnInv sm queue ordering f → sm.length + 1 ≤ fuel + ordering.length →
      ∃ f2, KahnInv sm [] (kahnLoop (buildGraph sm) fuel queue ordering f) f2 := by
  intro fuel
  induction fuel with
  | zero =>
    intro queue ordering f inv hlen
    exfalso
    have hle : ordering.length ≤ sm.length := by
      have h1 : ordering.toFinset.card = ordering.length :=
        List.toFinset_card_of_nodup inv.ord_nodup
      have h2 : ordering.toFinset ⊆ (keysOf sm).toFinset := by
        intro x hx
        rw [List.mem_toFinset] at hx ⊢
        exact inv.ord_keys x hx
      have h3 : (keysOf sm).toFinset.card ≤ (keysOf sm).length := List.toFinset_card_le _
      have h4 : (keysOf sm).length = sm.length := List.length_map _ _
      have := Finset.card_le_card h2
      omega
    omega
  | succ fuel ih =>
    intro queue ordering f inv hlen
    cases queue with
    | nil =>
      exact ⟨f, inv⟩
    | cons node rest =>
      have hstep := kahn_step sm hnd node rest ordering f inv
      have harith : sm.length + 1 ≤ fuel + (ordering ++ [node]).length := by
        rw [List.length_append, List.length_singleton]
        omega
      exact ih _ _ _ hstep harith

theorem kahn_complete (sm : ModuleDict) (hnd : (keysOf sm).Nodup) {ord : List String}
    {f2 : String → Int} (inv : KahnInv sm [] ord f2) (hac : Acyclic sm) :
    ∀ c ∈ keysOf sm, c ∈ ord := by
  by_contra hcon
  push_neg at hcon
  obtain ⟨c0, hc0k, hc0no⟩ := hcon
  classical
  set S : Finset String := (keysOf sm).toFinset \ ord.toFinset with hS
  have hc0S : c0 ∈ S := by
    rw [hS, Finset.mem_sdiff, List.mem_toFinset, List.mem_toFinset]
    exact ⟨hc0k, hc0no⟩
  have hpred : ∀ c ∈ S, ∃ p, p ∈ S ∧ Edge sm p c := by
    intro c hc
    rw [hS, Finset.mem_sdiff, List.mem_toFinset, List.mem_toFinset] at hc
    obtain ⟨m, hm⟩ := exists_of_mem_keys hc.1
    have hnmem : ¬((c, m).1 ∈ ord ∨ (c, m).1 ∈ ([] : List String)) := by
      simp [hc.2]
    have hnA : ¬(∀ pre ∈ m.prerequisites, pre ∈ keysOf sm → pre ∈ ord) := by
      intro hAcm
      exact hnmem ((inv.mem_iff (c, m) hm).2 hAcm)
    push_neg at hnA
    obtain ⟨pre, hpre, hprek, hpreno⟩ := hnA
    refine ⟨pre, ?_, ?_⟩
    · rw [hS, Finset.mem_sdiff, List.mem_toFinset, List.mem_toFinset]
      exact ⟨hprek, hpreno⟩
    · exact (edge_iff sm pre c).2 ⟨hprek, m, hm, hpre⟩
  choose g hgS hgE using hpred
  let F : {x // x ∈ S} → {x // x ∈ S} := fun x => ⟨g x.1 x.2, hgS x.1 x.2⟩
  let seq : ℕ → {x // x ∈ S} := fun n => F^[n] ⟨c0, hc0S⟩
  have hstep : ∀ n, Edge sm (seq (n + 1)).1 (seq n).1 := by
    intro n
    have h1 : seq (n + 1) = F (seq n) := Function.iterate_succ_apply' F n _
    rw [h1]
    exact hgE (seq n).1 (seq n).2
  have hchain : ∀ i d, Relation.TransGen (Edge sm) ((seq (i + d + 1)).1) ((seq i).1) := by
    intro i d
    induction d with
    | zero => exact Relation.TransGen.single (hstep i)
    | succ d ihd =>
      have h1 : Edge sm (seq (i + d + 1 + 1)).1 (seq (i + d + 1)).1 := hstep (i + d + 1)
      have h2 : i + (d + 1) + 1 = i + d + 1 + 1 := by omega
      rw [h2]
      exact Relation.TransGen.head h1 ihd
  have hmaps : ∀ n ∈ Finset.range (S.card + 1), (seq n).1 ∈ S := fun n _ => (seq n).2
  have hcard : S.card < (Finset.range (S.card + 1)).card := by
    rw [Finset.card_range]
    omega
  obtain ⟨i, _, j, _, hne, heq2⟩ :=
    Finset.exists_ne_map_eq_of_card_lt_of_maps_to hcard hmaps
  have hcontra : ∀ i j : ℕ, i < j → (seq i).1 = (seq j).1 → False := by
    intro i j hlt he
    have hd := hchain i (j - i - 1)
    rw [show i + (j - i - 1) + 1 = j by omega] at hd
    rw [← he] at hd
    exact hac _ hd
  rcases lt_or_gt_of_ne hne with h | h
  · exact hcontra i j h heq2
  · exact hcontra j i h heq2.symm

theorem topological_sort_complete (sm : ModuleDict) (hnd : (keysOf sm).Nodup)
    (hac : Acyclic sm) :
    ∃ ord, topological_sort sm = (some ord, none) ∧ ord.Perm (keysOf sm) ∧
      ∀ cm ∈ sm, ∀ pre ∈ cm.2.prerequisites, pre ∈ keysOf sm →
        ord.indexOf pre < ord.indexOf cm.1 := by
  obtain ⟨f2, inv⟩ := kahnLoop_spec sm hnd (sm.length + 1)
    ((keysOf sm).filter (fun code => decide (buildInDegree sm code = 0))) [] (buildInDegree sm)
    (kahn_init sm hnd) (by simp)
  set ord := kahnLoop (buildGraph sm) (sm.length + 1)
    ((keysOf sm).filter (fun code => decide (buildInDegree sm code = 0))) []
    (buildInDegree sm) with hord
  have hsup := kahn_complete sm hnd inv hac
  have htof : ord.toFinset = (keysOf sm).toFinset := by
    apply Finset.ext
    intro x
    rw [List.mem_toFinset, List.mem_toFinset]
    exact ⟨fun h => inv.ord_keys x h, fun h => hsup x h⟩
  have hperm : ord.Perm (keysOf sm) :=
    List.perm_of_nodup_nodup_toFinset_eq inv.ord_nodup hnd htof
  have hlen : ord.length = sm.length := by
    rw [hperm.length_eq]
    simp [keysOf]
  refine ⟨ord, ?_, hperm, ?_⟩
  · have hts : topological_sort sm
        = if ord.length = sm.length then (some ord, none) else (none, detect_cycle sm) := rfl
    rw [hts, if_pos hlen]
  · intro cm hcm pre hpre hk
    have hmemord : cm.1 ∈ ord := hsup cm.1 (List.mem_map.2 ⟨cm, hcm, rfl⟩)
    exact (inv.sorted cm hcm hmemord pre hpre hk).2

theorem topological_sort_incomplete (sm : ModuleDict) (hnd : (keysOf sm).Nodup)
    {a : String} (hcyc : Relation.TransGen (Edge sm) a a) :
    topological_sort sm = (none, detect_cycle sm) := by
  obtain ⟨f2, inv⟩ := kahnLoop_spec sm hnd (sm.length + 1)
    ((keysOf sm).filter (fun code => decide (buildInDegree sm code = 0))) [] (buildInDegree sm)
    (kahn_init sm hnd) (by simp)
  set ord := kahnLoop (buildGraph sm) (sm.length + 1)
    ((keysOf sm).filter (fun code => decide (buildInDegree sm code = 0))) []
    (buildInDegree sm) with hord
  have hne : ord.length ≠ sm.length := by
    intro hlen
    have h1 : ord.toFinset.card = ord.length := List.toFinset_card_of_nodup inv.ord_nodup
    have h2 : ord.toFinset ⊆ (keysOf sm).toFinset := by
      intro x hx
      rw [List.mem_toFinset] at hx ⊢
      exact inv.ord_keys x hx
    have h3 : (keysOf sm).toFinset.card = (keysOf sm).length := List.toFinset_card_of_nodup hnd
    have h4 : (keysOf sm).length = sm.length := List.length_map _ _
    have hsetseq : ord.toFinset = (keysOf sm).toFinset :=
      Finset.eq_of_subset_of_card_le h2 (by omega)
    have hall : ∀ c ∈ keysOf sm, c ∈ ord := by
      intro c hc
      have hmem : c ∈ (keysOf sm).toFinset := List.mem_toFinset.2 hc
      rw [← hsetseq, List.mem_toFinset] at hmem
      exact hmem
    have hrank : ∀ x y, Edge sm x y → ord.indexOf x < ord.indexOf y := by
      intro x y hxy
      obtain ⟨hxk, m, hym, hxpre⟩ := (edge_iff sm x y).1 hxy
      have hyord : y ∈ ord := hall y (mem_keys_of_mem hym)
      exact (inv.sorted (y, m) hym hyord x hxpre hxk).2
    exact (acyclic_of_edge_rank sm (fun s => ord.indexOf s) hrank) a hcyc
  have hts : topological_sort sm
      = if ord.length = sm.length then (some ord, none) else (none, detect_cycle sm) := rfl
  rw [hts, if_neg hne]

/-- C1: for every acyclic subset (duplicate-free keys, as for every Python
dict), `topological_sort` succeeds, the returned ordering is a permutation
of the subset's codes (each code appears exactly once), and every in-subset
prerequisite appears strictly before its dependent in the ordering. -/
theorem C1_topological_sort_correct (sm : ModuleDict) (hnd : (keysOf sm).Nodup)
    (hac : Acyclic sm) :
    ∃ ord, topological_sort sm = (some ord, none) ∧ ord.Perm (keysOf sm) ∧
      ∀ cm ∈ sm, ∀ pre ∈ cm.2.prerequisites, pre ∈ keysOf sm →
        ord.indexOf pre < ord.indexOf cm.1 :=
  topological_sort_complete sm hnd hac

/-- Witness for C1 at the concrete acyclic chain A → B → C. -/
theorem C1_topological_sort_correct_witness :
    ∃ ord, topological_sort exChain = (some ord, none) ∧ ord.Perm (keysOf exChain) ∧
      ∀ cm ∈ exChain, ∀ pre ∈ cm.2.prerequisites, pre ∈ keysOf exChain →
        ord.indexOf pre < ord.indexOf cm.1 :=
  C1_topological_sort_correct exChain (by decide)
    (acyclic_of_edge_rank exChain
      (fun s => if s = "A" then 0 else if s = "B" then 1 else 2)
      (by
        intro a b h
        have ha := edge_pre_mem_keys h
        have hb := edge_code_mem_keys h
        have ha2 : a = "A" ∨ a = "B" ∨ a = "C" := by
          simpa [keysOf, exChain] using ha
        have hb2 : b = "A" ∨ b = "B" ∨ b = "C" := by
          simpa [keysOf, exChain] using hb
        rcases ha2 with rfl | rfl | rfl <;> rcases hb2 with rfl | rfl | rfl <;>
          first
            | decide
            | exact absurd (show _ ∈ buildGraph exChain _ from h) (by decide)))

/-! ### C5/C2: DFS cycle detection -/

theorem toFinset_list_insert (a : String) (l : List String) :
    (l.insert a).toFinset = insert a l.toFinset := by
  ext x
  simp [List.mem_insert_iff]

theorem indexOf_lt_of_mem_take {l : List String} {i : Nat} {b : String} (h : b ∈ l.take i) :
    l.indexOf b < i := by
  have h1 : (l.take i ++ l.drop i).indexOf b = (l.take i).indexOf b :=
    List.indexOf_append_of_mem h
  rw [List.take_append_drop] at h1
  have h2 : (l.take i).indexOf b < (l.take i).length := List.indexOf_lt_length.2 h
  have h3 : (l.take i).length ≤ i := by
    simp [List.length_take]
  omega

theorem card_sdiff_anti {sm : ModuleDict} {v v2 : List String}
    (hsub : ∀ c ∈ v, c ∈ v2) :
    ((keysOf sm).toFinset \ v2.toFinset).card ≤ ((keysOf sm).toFinset \ v.toFinset).card := by
  apply Finset.card_le_card
  apply Finset.sdiff_subset_sdiff (Finset.Subset.refl _)
  intro x hx
  rw [List.mem_toFinset] at hx ⊢
  exact hsub x hx

theorem cycle_slice_valid (sm : ModuleDict) {v r p L : List String}
    (inv : DfsInv sm v r p L) (hp : p ≠ [])
    {nb : String} (hnbr : nb ∈ r)
    (hlast : ∀ x, p.getLast? = some x → Edge sm x nb) :
    CycleValid sm (p.drop (p.indexOf nb)) := by
  have hnbp : nb ∈ p := (inv.r_iff nb).1 hnbr
  set i := p.indexOf nb with hidef
  have hilt : i < p.length := List.indexOf_lt_length.2 hnbp
  have hnonempty : p.drop i ≠ [] := by
    intro hnil
    have hlen : (p.drop i).length = p.length - i := List.length_drop i p
    rw [hnil] at hlen
    simp at hlen
    omega
  refine ⟨hnonempty, ?_, ?_, ?_⟩
  · exact List.Nodup.sublist (List.drop_sublist i p) inv.p_nodup
  · have hC : List.Chain' (Edge sm) (p.take i ++ p.drop i) := by
      rw [List.take_append_drop]
      exact inv.p_chain
    exact (List.chain'_append.1 hC).2.1
  · intro a b hhead hlastq
    have hh : (p.drop i).head? = some nb := by
      rw [List.head?_drop]
      exact List.getElem?_indexOf hnbp
    rw [hh] at hhead
    injection hhead with hhead
    subst hhead
    have hl : (p.drop i).getLast? = p.getLast? := by
      calc (p.drop i).getLast? = (p.take i ++ p.drop i).getLast? :=
            (List.getLast?_append_of_ne_nil _ hnonempty).symm
        _ = p.getLast? := by rw [List.take_append_drop]
    rw [hl] at hlastq
    exact hlast b hlastq

theorem dfsVisitNbrs_spec (sm : ModuleDict)
    (rec : String → List String → List String → List String →
      List String × List String × List String × Option (List String))
    (bound : Nat) (hrec : DfsRecSpec sm rec bound) :
    ∀ (nbs : List String) (v r p L : List String),
      DfsInv sm v r p L →
      (∀ nb ∈ nbs, nb ∈ keysOf sm) →
      (∀ nb ∈ nbs, ∀ x, p.getLast? = some x → Edge sm x nb) →
      p ≠ [] →
      ((keysOf sm).toFinset \ v.toFinset).card < bound →
      ∀ v2 r2 p2 res, dfsVisitNbrs rec nbs v r p = (v2, r2, p2, res) →
        ((∃ cyc, res = some cyc ∧ CycleValid sm cyc) ∨
         (res = none ∧ r2 = r ∧ p2 = p ∧ (∀ c ∈ v, c ∈ v2) ∧
           (∀ nb ∈ nbs, nb ∈ v2 ∧ nb ∉ r) ∧ ∃ L2, DfsInv sm v2 r p L2)) := by
  intro nbs
  induction nbs with
  | nil =>
    intro v r p L inv hkeys hedges hp hcard v2 r2 p2 res hres
    rw [dfsVisitNbrs] at hres
    simp only [Prod.mk.injEq] at hres
    obtain ⟨rfl, rfl, rfl, hres4⟩ := hres
    exact Or.inr ⟨hres4.symm, rfl, rfl, fun c hc => hc, by simp, ⟨L, inv⟩⟩
  | cons nb rest ih =>
    intro v r p L inv hkeys hedges hp hcard v2 r2 p2 res hres
    have hedge_nb : ∀ x, p.getLast? = some x → Edge sm x nb :=
      hedges nb (List.mem_cons_self _ _)
    by_cases hnb : nb ∉ v
    · rcases hcall : rec nb v r p with ⟨va, ra, pa, resa⟩
      have hspec := hrec nb v r p L inv hnb (hkeys nb (List.mem_cons_self _ _)) hedge_nb
        hcard va ra pa resa hcall
      cases resa with
      | none =>
        have hstep : dfsVisitNbrs rec (nb :: rest) v r p = dfsVisitNbrs rec rest va ra pa := by
          rw [dfsVisitNbrs, if_pos hnb, hcall]
        rw [hstep] at hres
        rcases hspec with ⟨cyc, hcyc, -⟩ | ⟨-, hra, hpa, hmono, hnbva, L2, inv2⟩
        · cases hcyc
        · rw [hra, hpa] at hres
          have hcard2 : ((keysOf sm).toFinset \ va.toFinset).card < bound :=
            lt_of_le_of_lt (card_sdiff_anti hmono) hcard
          have hrest := ih va r p L2 inv2
            (fun x hx => hkeys x (List.mem_cons_of_mem _ hx))
            (fun x hx => hedges x (List.mem_cons_of_mem _ hx))
            hp hcard2 v2 r2 p2 res hres
          rcases hrest with hL | ⟨hres0, hr2, hp2, hmono2, hnbs2, L3, inv3⟩
          · exact Or.inl hL
          · refine Or.inr ⟨hres0, hr2, hp2, fun c hc => hmono2 c (hmono c hc), ?_, L3, inv3⟩
            intro x hx
            rcases List.mem_cons.1 hx with rfl | hx2
            · refine ⟨hmono2 x hnbva, ?_⟩
              intro hxr
              exact hnb (inv.p_sub_v x ((inv.r_iff x).1 hxr))
            · exact hnbs2 x hx2
      | some cyc =>
        have hstep : dfsVisitNbrs rec (nb :: rest) v r p = (va, ra, pa, some cyc) := by
          rw [dfsVisitNbrs, if_pos hnb, hcall]
        rw [hstep] at hres
        simp only [Prod.mk.injEq] at hres
        obtain ⟨-, -, -, hres4⟩ := hres
        rcases hspec with ⟨cyc2, hcyc2, hvalid⟩ | ⟨hnone, -⟩
        · injection hcyc2 with hcyc2
          subst hcyc2
          exact Or.inl ⟨cyc, hres4.symm, hvalid⟩
        · cases hnone
    · push_neg at hnb
      by_cases hnbr : nb ∈ r
      · have hstep : dfsVisitNbrs rec (nb :: rest) v r p
            = (v, r, p, some (p.drop (p.indexOf nb))) := by
          rw [dfsVisitNbrs, if_neg (by simpa using hnb), if_pos hnbr]
        rw [hstep] at hres
        simp only [Prod.mk.injEq] at hres
        obtain ⟨-, -, -, hres4⟩ := hres
        exact Or.inl ⟨_, hres4.symm, cycle_slice_valid sm inv hp hnbr hedge_nb⟩
      · have hstep : dfsVisitNbrs rec (nb :: rest) v r p = dfsVisitNbrs rec rest v r p := by
          rw [dfsVisitNbrs, if_neg (by simpa using hnb), if_neg hnbr]
        rw [hstep] at hres
        have hrest := ih v r p L inv
          (fun x hx => hkeys x (List.mem_cons_of_mem _ hx))
          (fun x hx => hedges x (List.mem_cons_of_mem _ hx))
          hp hcard v2 r2 p2 res hres
        rcases hrest with hL | ⟨hres0, hr2, hp2, hmono2, hnbs2, L3, inv3⟩
        · exact Or.inl hL
        · refine Or.inr ⟨hres0, hr2, hp2, hmono2, ?_, L3, inv3⟩
          intro x hx
          rcases List.mem_cons.1 hx with rfl | hx2
          · exact ⟨hmono2 x hnb, hnbr⟩
          · exact hnbs2 x hx2

theorem dfsGo_spec (sm : ModuleDict) :
    ∀ fuel : Nat, DfsRecSpec sm (dfsGo (buildGraph sm) fuel) fuel := by
  intro fuel
  induction fuel with
  | zero =>
    intro node v r p L inv hnv hnk hlast hcard
    exact absurd hcard (Nat.not_lt_zero _)
  | succ fuel ih =>
    intro node v r p L inv hnv hnk hlast hcard v2 r2 p2 res hres
    have hnodep : node ∉ p := fun h => hnv (inv.p_sub_v node h)
    have hnoder : node ∉ r := fun h => hnodep ((inv.r_iff node).1 h)
    have inv1 : DfsInv sm (v.insert node) (r.insert node) (p ++ [node]) L := by
      constructor
      · rw [List.nodup_append]
        refine ⟨inv.p_nodup, List.nodup_singleton _, ?_⟩
        intro a ha hb
        rw [List.mem_singleton] at hb
        subst hb
        exact hnodep ha
      · intro c
        rw [List.mem_insert_iff, List.mem_append, List.mem_singleton]
        constructor
        · rintro (rfl | h)
          · exact Or.inr rfl
          · exact Or.inl ((inv.r_iff c).1 h)
        · rintro (h | rfl)
          · exact Or.inr ((inv.r_iff c).2 h)
          · exact Or.inl rfl
      · intro c hc
        rw [List.mem_insert_iff]
        rcases List.mem_append.1 hc with h | h
        · exact Or.inr (inv.p_sub_v c h)
        · rw [List.mem_singleton] at h
          exact Or.inl h
      · intro c hc
        rcases List.mem_insert_iff.1 hc with rfl | h
        · exact hnk
        · exact inv.v_keys c h
      · rw [List.chain'_append]
        refine ⟨inv.p_chain, List.chain'_singleton _, ?_⟩
        intro x hx y hy
        have hyn : y = node := by
          simp only [List.head?_cons, Option.mem_def, Option.some.injEq] at hy
          exact hy.symm
        subst hyn
        exact hlast x (Option.mem_def.1 hx)
      · exact inv.L_nodup
      · intro c
        rw [inv.L_iff c]
        constructor
        · rintro ⟨hcv, hcr⟩
          refine ⟨List.mem_insert_iff.2 (Or.inr hcv), ?_⟩
          intro hc1
          rcases List.mem_insert_iff.1 hc1 with rfl | h
          · exact hnv hcv
          · exact hcr h
        · rintro ⟨hcv, hcr⟩
          rcases List.mem_insert_iff.1 hcv with rfl | hcv2
          · exact absurd (List.mem_insert_iff.2 (Or.inl rfl)) hcr
          · exact ⟨hcv2, fun h => hcr (List.mem_insert_iff.2 (Or.inr h))⟩
      · exact inv.L_topo
    have hedges : ∀ nb ∈ buildGraph sm node, ∀ x,
        (p ++ [node]).getLast? = some x → Edge sm x nb := by
      intro nb hnb x hx
      rw [List.getLast?_concat] at hx
      injection hx with hx
      subst hx
      exact hnb
    have hkeys2 : ∀ nb ∈ buildGraph sm node, nb ∈ keysOf sm := by
      intro nb hnb
      exact edge_code_mem_keys (show Edge sm node nb from hnb)
    have hpne : p ++ [node] ≠ [] := by simp
    have hnodemem : node ∈ (keysOf sm).toFinset \ v.toFinset := by
      rw [Finset.mem_sdiff, List.mem_toFinset, List.mem_toFinset]
      exact ⟨hnk, hnv⟩
    have hcard1 : ((keysOf sm).toFinset \ (v.insert node).toFinset).card < fuel := by
      have hpos : 0 < ((keysOf sm).toFinset \ v.toFinset).card :=
        Finset.card_pos.2 ⟨node, hnodemem⟩
      rw [toFinset_list_insert, Finset.sdiff_insert, Finset.card_erase_of_mem hnodemem]
      omega
    rcases hinner : dfsVisitNbrs (dfsGo (buildGraph sm) fuel) (buildGraph sm node)
        (v.insert node) (r.insert node) (p ++ [node]) with ⟨va, ra, pa, resa⟩
    have hspec := dfsVisitNbrs_spec sm (dfsGo (buildGraph sm) fuel) fuel ih
      (buildGraph sm node) (v.insert node) (r.insert node) (p ++ [node]) L inv1
      hkeys2 hedges hpne hcard1 va ra pa resa hinner
    have hdef : dfsGo (buildGraph sm) (fuel + 1) node v r p
        = match dfsVisitNbrs (dfsGo (buildGraph sm) fuel) (buildGraph sm node)
            (v.insert node) (r.insert node) (p ++ [node]) with
          | (w2, s2, q2, some cyc) => (w2, s2, q2, some cyc)
          | (w2, s2, q2, none) => (w2, s2.erase node, q2.dropLast, none) := rfl
    cases resa with
    | some cyc =>
      have hgo : dfsGo (buildGraph sm) (fuel + 1) node v r p = (va, ra, pa, some cyc) := by
        rw [hdef, hinner]
      rw [hgo] at hres
      simp only [Prod.mk.injEq] at hres
      obtain ⟨-, -, -, hres4⟩ := hres
      rcases hspec with ⟨cyc2, hcyc2, hvalid⟩ | ⟨hnone, -⟩
      · injection hcyc2 with h
        subst h
        exact Or.inl ⟨cyc, hres4.symm, hvalid⟩
      · cases hnone
    | none =>
      rcases hspec with ⟨cyc2, hcyc2, -⟩ | ⟨-, hra, hpa, hmono, hnbs, L2, inv2⟩
      · cases hcyc2
      · have hrins : r.insert node = node :: r := List.insert_of_not_mem hnoder
        have hgo0 : dfsGo (buildGraph sm) (fuel + 1) node v r p
            = (va, ra.erase node, pa.dropLast, none) := by
          rw [hdef, hinner]
        have hgo : dfsGo (buildGraph sm) (fuel + 1) node v r p = (va, r, p, none) := by
          rw [hgo0, hra, hrins, List.erase_cons_head, hpa, List.dropLast_concat]
        rw [hgo] at hres
        simp only [Prod.mk.injEq] at hres
        obtain ⟨hv2, hr2, hp2, hres4⟩ := hres
        have hmono2 : ∀ c ∈ v, c ∈ v2 := by
          intro c hc
          rw [← hv2]
          exact hmono c (List.mem_insert_iff.2 (Or.inr hc))
        have hnodev2 : node ∈ v2 := by
          rw [← hv2]
          exact hmono node (List.mem_insert_iff.2 (Or.inl rfl))
        have hnodeL2 : node ∉ L2 := by
          intro h
          exact ((inv2.L_iff node).1 h).2 (List.mem_insert_iff.2 (Or.inl rfl))
        have hvaeq : va = v2 := hv2
        refine Or.inr ⟨hres4.symm, hr2.symm, hp2.symm, hmono2, hnodev2, L2 ++ [node], ?_⟩
        constructor
        · exact inv.p_nodup
        · exact inv.r_iff
        · intro c hc
          rw [← hvaeq]
          exact hmono c (List.mem_insert_iff.2 (Or.inr (inv.p_sub_v c hc)))
        · intro c hc
          rw [← hvaeq] at hc
          exact inv2.v_keys c hc
        · exact inv.p_chain
        · rw [List.nodup_append]
          refine ⟨inv2.L_nodup, List.nodup_singleton _, ?_⟩
          intro a ha hb
          rw [List.mem_singleton] at hb
          subst hb
          exact hnodeL2 ha
        · intro c
          rw [List.mem_append, List.mem_singleton]
          constructor
          · rintro (h | rfl)
            · obtain ⟨hcv, hcr⟩ := (inv2.L_iff c).1 h
              rw [← hvaeq]
              refine ⟨hcv, ?_⟩
              intro hcr2
              exact hcr (List.mem_insert_iff.2 (Or.inr hcr2))
            · exact ⟨hvaeq ▸ hnodev2, hnoder⟩
          · rintro ⟨hcv, hcr⟩
            by_cases hcn : c = node
            · exact Or.inr hcn
            · refine Or.inl ((inv2.L_iff c).2 ⟨hvaeq ▸ hcv, ?_⟩)
              intro hc1
              rcases List.mem_insert_iff.1 hc1 with h | h
              · exact hcn h
              · exact hcr h
        · intro i hi b hedge
          rw [List.length_append, List.length_singleton] at hi
          by_cases hiL : i < L2.length
          · have hget : (L2 ++ [node]).get ⟨i, by rw [List.length_append]; omega⟩
                = L2.get ⟨i, hiL⟩ := List.get_append i hiL
            rw [List.take_append_of_le_length (le_of_lt hiL)]
            have := inv2.L_topo i hiL b
            rw [← hget] at this
            exact this hedge
          · have hieq : i = L2.length := by omega
            subst hieq
            have hget : (L2 ++ [node]).get ⟨L2.length, by simp⟩ = node := by
              rw [List.get_append_right] <;> simp
            rw [hget] at hedge
            rw [List.take_append_of_le_length (le_refl _), List.take_length]
            have hb2 := hnbs b hedge
            refine ((inv2.L_iff b).2 ⟨?_, hb2.2⟩)
            exact hb2.1

theorem detectLoop_spec (sm : ModuleDict) :
    ∀ (roots v L : List String),
      DfsInv sm v [] [] L → (∀ c ∈ roots, c ∈ keysOf sm) →
      ∀ res, detectLoop (buildGraph sm) (sm.length + 1) roots v [] = res →
        ((∃ cyc, res = some cyc ∧ CycleValid sm cyc) ∨
         (res = none ∧ ∃ v2 L2, DfsInv sm v2 [] [] L2 ∧ (∀ c ∈ roots, c ∈ v2) ∧
           (∀ c ∈ v, c ∈ v2))) := by
  intro roots
  induction roots with
  | nil =>
    intro v L inv hroots res hres
    rw [detectLoop] at hres
    refine Or.inr ⟨hres.symm, v, L, inv, ?_, fun c hc => hc⟩
    intro c hc
    cases hc
  | cons node rest ih =>
    intro v L inv hroots res hres
    by_cases hnv : node ∉ v
    · rcases hcall : dfsGo (buildGraph sm) (sm.length + 1) node v [] []
        with ⟨va, ra, pa, resa⟩
      have hcard : ((keysOf sm).toFinset \ v.toFinset).card < sm.length + 1 := by
        have h1 : ((keysOf sm).toFinset \ v.toFinset).card ≤ (keysOf sm).toFinset.card :=
          Finset.card_le_card (Finset.sdiff_subset)
        have h2 := List.toFinset_card_le (keysOf sm)
        have h3 : (keysOf sm).length = sm.length := List.length_map _ _
        omega
      have hspec := dfsGo_spec sm (sm.length + 1) node v [] [] L inv hnv
        (hroots node (List.mem_cons_self _ _))
        (by intro x hx; simp at hx) hcard va ra pa resa hcall
      cases resa with
      | some cyc =>
        have hstep : detectLoop (buildGraph sm) (sm.length + 1) (node :: rest) v []
            = some cyc := by
          rw [detectLoop, if_pos hnv, hcall]
        rw [hstep] at hres
        rcases hspec with ⟨cyc2, hc2, hvalid⟩ | ⟨hn, -⟩
        · injection hc2 with hc2
          subst hc2
          exact Or.inl ⟨cyc, hres.symm, hvalid⟩
        · cases hn
      | none =>
        rcases hspec with ⟨cyc2, hc2, -⟩ | ⟨-, hra, hpa, hmono, hnodeva, L2, inv2⟩
        · cases hc2
        · have hstep : detectLoop (buildGraph sm) (sm.length + 1) (node :: rest) v []
              = detectLoop (buildGraph sm) (sm.length + 1) rest va ra := by
            rw [detectLoop, if_pos hnv, hcall]
          rw [hstep, hra] at hres
          have hrest := ih va L2 inv2 (fun c hc => hroots c (List.mem_cons_of_mem _ hc))
            res hres
          rcases hrest with hL | ⟨hres0, v2, L3, inv3, hcov, hmono2⟩
          · exact Or.inl hL
          · refine Or.inr ⟨hres0, v2, L3, inv3, ?_, fun c hc => hmono2 c (hmono c hc)⟩
            intro c hc
            rcases List.mem_cons.1 hc with rfl | hc2
            · exact hmono2 c hnodeva
            · exact hcov c hc2
    · push_neg at hnv
      have hstep : detectLoop (buildGraph sm) (sm.length + 1) (node :: rest) v []
          = detectLoop (buildGraph sm) (sm.length + 1) rest v [] := by
        rw [detectLoop, if_neg (by simpa using hnv)]
      rw [hstep] at hres
      have hrest := ih v L inv (fun c hc => hroots c (List.mem_cons_of_mem _ hc)) res hres
      rcases hrest with hL | ⟨hres0, v2, L3, inv3, hcov, hmono2⟩
      · exact Or.inl hL
      · refine Or.inr ⟨hres0, v2, L3, inv3, ?_, hmono2⟩
        intro c hc
        rcases List.mem_cons.1 hc with rfl | hc2
        · exact hmono2 c hnv
        · exact hcov c hc2

theorem detect_cycle_spec (sm : ModuleDict) :
    (∀ cyc, detect_cycle sm = some cyc → CycleValid sm cyc) ∧
    (detect_cycle sm = none → Acyclic sm) := by
  have hinit : DfsInv sm [] [] [] [] := by
    constructor
    · exact List.nodup_nil
    · intro c
      rfl
    · intro c hc
      cases hc
    · intro c hc
      cases hc
    · exact List.chain'_nil
    · exact List.nodup_nil
    · intro c
      simp
    · intro i hi
      cases hi
  have hroots : ∀ c ∈ keysOf sm, c ∈ keysOf sm := fun c hc => hc
  have hd : detect_cycle sm = detectLoop (buildGraph sm) (sm.length + 1) (keysOf sm) [] [] :=
    rfl
  constructor
  · intro cyc hc
    rw [hd] at hc
    have hspec := detectLoop_spec sm (keysOf sm) [] [] hinit hroots (some cyc) hc
    rcases hspec with ⟨cyc2, h1, h2⟩ | ⟨h, -⟩
    · injection h1 with h1
      subst h1
      exact h2
    · cases h
  · intro hnone
    rw [hd] at hnone
    have hspec := detectLoop_spec sm (keysOf sm) [] [] hinit hroots none hnone
    rcases hspec with ⟨cyc2, h1, -⟩ | ⟨-, v2, L2, inv2, hcov, -⟩
    · cases h1
    · apply acyclic_of_edge_rank_gt sm (fun s => L2.indexOf s)
      intro a b hedge
      have haK : a ∈ keysOf sm := edge_pre_mem_keys hedge
      have haV : a ∈ v2 := hcov a haK
      have haL : a ∈ L2 := (inv2.L_iff a).2 ⟨haV, by simp⟩
      have hil : L2.indexOf a < L2.length := List.indexOf_lt_length.2 haL
      have hget : L2.get ⟨L2.indexOf a, hil⟩ = a := List.indexOf_get hil
      have hbtake : b ∈ L2.take (L2.indexOf a) := by
        apply inv2.L_topo (L2.indexOf a) hil b
        rw [hget]
        exact hedge
      exact indexOf_lt_of_mem_take hbtake

theorem chain'_reflTransGen {R : String → String → Prop} :
    ∀ {l : List String} (hl : l ≠ []), List.Chain' R l →
      Relation.ReflTransGen R (l.head hl) (l.getLast hl) := by
  intro l
  induction l with
  | nil =>
    intro h
    cases h rfl
  | cons x t ih =>
    intro hl hchain
    cases t with
    | nil => exact Relation.ReflTransGen.refl
    | cons y t2 =>
      rw [List.chain'_cons] at hchain
      have hlast : (x :: y :: t2).getLast hl = (y :: t2).getLast (by simp) :=
        List.getLast_cons (by simp)
      rw [show (x :: y :: t2).head hl = x from rfl, hlast]
      exact Relation.ReflTransGen.head hchain.1 (ih (by simp) hchain.2)

theorem cycleValid_exists_transGen {sm : ModuleDict} {cyc : List String}
    (h : CycleValid sm cyc) : ∃ a, Relation.TransGen (Edge sm) a a := by
  obtain ⟨hne, hnd, hchain, hclose⟩ := h
  refine ⟨cyc.head hne, ?_⟩
  have h1 : Relation.ReflTransGen (Edge sm) (cyc.head hne) (cyc.getLast hne) :=
    chain'_reflTransGen hne hchain
  have h2 : Edge sm (cyc.getLast hne) (cyc.head hne) :=
    hclose _ _ (List.head?_eq_head hne) (List.getLast?_eq_getLast cyc hne)
  exact Relation.TransGen.tail' h1 h2

/-- C5: whenever `detect_cycle` reports a cycle, the returned sequence is
non-empty, repeats no node (in particular the first element is not
duplicated at the end), every adjacent pair is a real edge of the subset
graph (the earlier element is a prerequisite of the later one, both being
subset keys), and the last element has an edge back to the first, closing
the loop. -/
theorem C5_cycle_report_valid (sm : ModuleDict) (cyc : List String)
    (h : detect_cycle sm = some cyc) :
    cyc ≠ [] ∧ cyc.Nodup ∧
      List.Chain' (fun a b => a ∈ keysOf sm ∧ b ∈ keysOf sm ∧
        ∃ m, (b, m) ∈ sm ∧ a ∈ m.prerequisites) cyc ∧
      (∀ a b, cyc.head? = some a → cyc.getLast? = some b →
        b ∈ keysOf sm ∧ a ∈ keysOf sm ∧ ∃ m, (a, m) ∈ sm ∧ b ∈ m.prerequisites) := by
  have hv := (detect_cycle_spec sm).1 cyc h
  obtain ⟨hne, hnd, hchain, hclose⟩ := hv
  refine ⟨hne, hnd, ?_, ?_⟩
  · apply List.Chain'.imp ?_ hchain
    intro a b hedge
    obtain ⟨h1, m, h2, h3⟩ := (edge_iff sm a b).1 hedge
    exact ⟨h1, mem_keys_of_mem h2, m, h2, h3⟩
  · intro a b hh hl
    have hedge := hclose a b hh hl
    obtain ⟨h1, m, h2, h3⟩ := (edge_iff sm b a).1 hedge
    exact ⟨h1, mem_keys_of_mem h2, m, h2, h3⟩

/-- Witness for C5 on the two-cycle X ↔ Y, where `detect_cycle` reports
`[X, Y]`. -/
theorem C5_cycle_report_valid_witness :
    (["X", "Y"] : List String) ≠ [] ∧ (["X", "Y"] : List String).Nodup ∧
      List.Chain' (fun a b => a ∈ keysOf exCyclic ∧ b ∈ keysOf exCyclic ∧
        ∃ m, (b, m) ∈ exCyclic ∧ a ∈ m.prerequisites) ["X", "Y"] ∧
      (∀ a b, (["X", "Y"] : List String).head? = some a →
        (["X", "Y"] : List String).getLast? = some b →
        b ∈ keysOf exCyclic ∧ a ∈ keysOf exCyclic ∧
          ∃ m, (a, m) ∈ exCyclic ∧ b ∈ m.prerequisites) :=
  C5_cycle_report_valid exCyclic ["X", "Y"] (by decide)

/-- C2: for every subset (with distinct keys, as for every Python dict),
`topological_sort` fails — returning no ordering together with the
detector's answer — exactly when `detect_cycle` reports a cycle: the two
functions agree on cyclicity. -/
theorem C2_sort_detector_agree (sm : ModuleDict) (hnd : (keysOf sm).Nodup) :
    ((topological_sort sm).1 = none ↔ detect_cycle sm ≠ none) ∧
    ((topological_sort sm).1 = none → topological_sort sm = (none, detect_cycle sm)) := by
  constructor
  · constructor
    · intro hfail hdet
      have hac := (detect_cycle_spec sm).2 hdet
      obtain ⟨ord, hts, -, -⟩ := topological_sort_complete sm hnd hac
      rw [hts] at hfail
      cases hfail
    · intro hdet
      rcases hcyc : detect_cycle sm with _ | cyc
      · exact absurd hcyc hdet
      · have hvalid := (detect_cycle_spec sm).1 cyc hcyc
        obtain ⟨a, ha⟩ := cycleValid_exists_transGen hvalid
        rw [topological_sort_incomplete sm hnd ha]
  · intro hfail
    by_cases hc : ∃ a, Relation.TransGen (Edge sm) a a
    · obtain ⟨a, ha⟩ := hc
      exact topological_sort_incomplete sm hnd ha
    · push_neg at hc
      have hac : Acyclic sm := fun a hcc => hc a hcc
      obtain ⟨ord, hts, -, -⟩ := topological_sort_complete sm hnd hac
      rw [hts] at hfail
      cases hfail

/-- Witness for C2 on the two-cycle X ↔ Y. -/
theorem C2_sort_detector_agree_witness :
    (((topological_sort exCyclic).1 = none ↔ detect_cycle exCyclic ≠ none) ∧
      ((topological_sort exCyclic).1 = none →
        topological_sort exCyclic = (none, detect_cycle exCyclic))) :=
  C2_sort_detector_agree exCyclic (by decide)

/-! ### The credit planner -/

theorem topological_sort_some_props (sm : ModuleDict) (hnd : (keysOf sm).Nodup)
    {ord : List String} (h : (topological_sort sm).1 = some ord) :
    ord.Nodup ∧ ∀ c ∈ ord, c ∈ keysOf sm := by
  obtain ⟨f2, inv⟩ := kahnLoop_spec sm hnd (sm.length + 1)
    ((keysOf sm).filter (fun code => decide (buildInDegree sm code = 0))) [] (buildInDegree sm)
    (kahn_init sm hnd) (by simp)
  set kord := kahnLoop (buildGraph sm) (sm.length + 1)
    ((keysOf sm).filter (fun code => decide (buildInDegree sm code = 0))) []
    (buildInDegree sm) with hkord
  have hts : topological_sort sm
      = if kord.length = sm.length then (some kord, none) else (none, detect_cycle sm) := rfl
  by_cases hlen : kord.length = sm.length
  · rw [hts, if_pos hlen] at h
    have h2 : some kord = some ord := h
    injection h2 with h2
    exact ⟨h2 ▸ inv.ord_nodup, fun c hc => inv.ord_keys c (h2 ▸ hc)⟩
  · rw [hts, if_neg hlen] at h
    simp at h

theorem eraseP_key_ne {elig : ModuleDict} (hnd : (keysOf elig).Nodup)
    {cm : String × Module} (hmem : cm ∈ elig) :
    ∀ cm' ∈ elig.eraseP (fun x => x.1 == cm.1), cm'.1 ≠ cm.1 := by
  set p : String × Module → Bool := fun x => x.1 == cm.1 with hpdef
  have hp : p cm = true := beq_self_eq_true cm.1
  obtain ⟨a, l1, l2, hl1, hpa, hdec, herase⟩ := List.exists_of_eraseP hmem hp
  intro cm' hcm'
  rw [herase] at hcm'
  rcases List.mem_append.1 hcm' with h1 | h2
  · have := hl1 cm' h1
    simpa [hpdef] using this
  · have ha1 : a.1 = cm.1 := by simpa [hpdef] using hpa
    have hk : keysOf elig = keysOf l1 ++ a.1 :: keysOf l2 := by
      rw [hdec]
      simp [keysOf]
    rw [hk] at hnd
    have hnot : a.1 ∉ keysOf l2 := by
      have h2' := List.Nodup.of_append_right hnd
      exact (List.nodup_cons.1 h2').1
    intro hcc
    apply hnot
    rw [ha1, ← hcc]
    exact List.mem_map.2 ⟨cm', h2, rfl⟩

theorem rescan_mem (comp2 : List String) :
    ∀ (L acc : ModuleDict), ∀ cm' ∈ L.foldl (rescanStep comp2) acc,
      cm' ∈ acc ∨ (cm' ∈ L ∧ cm'.1 ∉ comp2 ∧
        cm'.2.prerequisites.all (fun pre => decide (pre ∈ comp2)) = true) := by
  intro L
  induction L with
  | nil =>
    intro acc cm' h
    rw [List.foldl_nil] at h
    exact Or.inl h
  | cons rm rest ih =>
    intro acc cm' h
    rw [List.foldl_cons, rescanStep] at h
    split at h
    case isTrue hc =>
      rcases ih (acc ++ [rm]) cm' h with hacc | hrest
      · rcases List.mem_append.1 hacc with h1 | h2
        · exact Or.inl h1
        · have heq : cm' = rm := by simpa using h2
          subst heq
          exact Or.inr ⟨List.mem_cons_self _ _, hc.1, hc.2.2⟩
      · exact Or.inr ⟨List.mem_cons_of_mem _ hrest.1, hrest.2⟩
    case isFalse hc =>
      rcases ih acc cm' h with h1 | h2
      · exact Or.inl h1
      · exact Or.inr ⟨List.mem_cons_of_mem _ h2.1, h2.2⟩

theorem rescan_nodup (comp2 : List String) :
    ∀ (L acc : ModuleDict), (keysOf acc).Nodup →
      (keysOf (L.foldl (rescanStep comp2) acc)).Nodup := by
  intro L
  induction L with
  | nil =>
    intro acc h
    rw [List.foldl_nil]
    exact h
  | cons rm rest ih =>
    intro acc h
    rw [List.foldl_cons, rescanStep]
    split
    case isTrue hc =>
      apply ih
      have hk : keysOf (acc ++ [rm]) = keysOf acc ++ [rm.1] := by simp [keysOf]
      rw [hk]
      refine List.Nodup.append h (List.nodup_singleton _) ?_
      intro a ha hb
      rw [List.mem_singleton] at hb
      exact hc.2.1 (hb ▸ ha)
    case isFalse hc => exact ih acc h

theorem elig0_spec (remaining : ModuleDict) (completed_keys : List String) :
    ∀ (topo : List String) (acc : ModuleDict),
      topo.Nodup → (keysOf acc).Nodup → (∀ c ∈ keysOf acc, c ∉ topo) →
      (∀ cm ∈ acc, List.lookup cm.1 remaining = some cm.2 ∧
        cm.2.prerequisites.all (fun pre => decide (pre ∈ completed_keys)) = true) →
      ((keysOf (topo.foldl (eligStep remaining completed_keys) acc)).Nodup ∧
        ∀ cm ∈ topo.foldl (eligStep remaining completed_keys) acc,
          List.lookup cm.1 remaining = some cm.2 ∧
          cm.2.prerequisites.all (fun pre => decide (pre ∈ completed_keys)) = true) := by
  intro topo
  induction topo with
  | nil =>
    intro acc _ hknd _ hacc
    rw [List.foldl_nil]
    exact ⟨hknd, hacc⟩
  | cons code rest ih =>
    intro acc hnd hknd hdis hacc
    rw [List.foldl_cons]
    have hndr : rest.Nodup := (List.nodup_cons.1 hnd).2
    have hcode : code ∉ rest := (List.nodup_cons.1 hnd).1
    rcases hlk : List.lookup code remaining with _ | m
    · have hstep : eligStep remaining completed_keys acc code = acc := by
        rw [eligStep, hlk]
      rw [hstep]
      exact ih acc hndr hknd
        (fun c hc => fun hmem => hdis c hc (List.mem_cons_of_mem _ hmem)) hacc
    · by_cases hall : m.prerequisites.all (fun pre => decide (pre ∈ completed_keys)) = true
      · have hstep : eligStep remaining completed_keys acc code = acc ++ [(code, m)] := by
          simp [eligStep, hlk, hall]
        rw [hstep]
        apply ih (acc ++ [(code, m)]) hndr
        · have hk : keysOf (acc ++ [(code, m)]) = keysOf acc ++ [code] := by simp [keysOf]
          rw [hk]
          refine List.Nodup.append hknd (List.nodup_singleton _) ?_
          intro a ha hb
          rw [List.mem_singleton] at hb
          subst hb
          exact hdis a ha (List.mem_cons_self _ _)
        · intro c hc
          have hk : keysOf (acc ++ [(code, m)]) = keysOf acc ++ [code] := by simp [keysOf]
          rw [hk] at hc
          rcases List.mem_append.1 hc with h1 | h2
          · exact fun hmem => hdis c h1 (List.mem_cons_of_mem _ hmem)
          · rw [List.mem_singleton] at h2
            subst h2
            exact hcode
        · intro cm hcm
          rcases List.mem_append.1 hcm with h1 | h2
          · exact hacc cm h1
          · have heq : cm = (code, m) := by simpa using h2
            subst heq
            exact ⟨hlk, hall⟩
      · have hstep : eligStep remaining completed_keys acc code = acc := by
          simp [eligStep, hlk, hall]
        rw [hstep]
        exact ih acc hndr hknd
          (fun c hc => fun hmem => hdis c hc (List.mem_cons_of_mem _ hmem)) hacc

theorem planLoop_spec (remaining : ModuleDict) (completed0 : List String) (target : Int)
    (hnd : (keysOf remaining).Nodup)
    (hdisj : ∀ c ∈ keysOf remaining, c ∉ completed0) :
    ∀ (fuel : Nat) (elig : ModuleDict) (comp : List String)
      (sems : List (List String)) (cur : List String) (credits : Int),
      PlanInv remaining completed0 elig comp (sems.flatten ++ cur) →
      ∃ elig2 comp2, PlanInv remaining completed0 elig2 comp2
        (planLoop remaining target fuel elig comp sems cur credits).flatten := by
  intro fuel
  induction fuel with
  | zero =>
    intro elig comp sems cur credits inv
    refine ⟨elig, comp, ?_⟩
    have hdef : planLoop remaining target 0 elig comp sems cur credits
        = sems ++ (if cur.isEmpty then [] else [cur]) := rfl
    have hflat : (sems ++ (if cur.isEmpty then [] else [cur])).flatten
        = sems.flatten ++ cur := by
      by_cases hc : cur.isEmpty
      · have hcur : cur = [] := List.isEmpty_iff.1 hc
        rw [if_pos hc, hcur]
        simp
      · rw [if_neg hc]
        simp
    rw [hdef, hflat]
    exact inv
  | succ fuel ih =>
    intro elig comp sems cur credits inv
    have hdef : planLoop remaining target (fuel + 1) elig comp sems cur credits
        = if elig.isEmpty then sems ++ (if cur.isEmpty then [] else [cur])
          else
            match elig.find?
                (fun cm => decide (credits + (cm.2.credits : Int) ≤ target)) with
            | some best_fit =>
              planLoop remaining target fuel
                (remaining.foldl (rescanStep (comp.insert best_fit.1))
                  (elig.eraseP (fun cm => cm.1 == best_fit.1)))
                (comp.insert best_fit.1) sems (cur ++ [best_fit.1])
                (credits + best_fit.2.credits)
            | none =>
              if cur.isEmpty then sems
              else planLoop remaining target fuel elig comp (sems ++ [cur]) [] 0 := rfl
    by_cases hemp : elig.isEmpty
    · refine ⟨elig, comp, ?_⟩
      have hflat : (sems ++ (if cur.isEmpty then [] else [cur])).flatten
          = sems.flatten ++ cur := by
        by_cases hc : cur.isEmpty
        · have hcur : cur = [] := List.isEmpty_iff.1 hc
          rw [if_pos hc, hcur]
          simp
        · rw [if_neg hc]
          simp
      rw [hdef, if_pos hemp, hflat]
      exact inv
    · rcases hfind : elig.find?
          (fun cm => decide (credits + (cm.2.credits : Int) ≤ target)) with _ | cm
      · by_cases hcur : cur.isEmpty
        · refine ⟨elig, comp, ?_⟩
          have hres : planLoop remaining target (fuel + 1) elig comp sems cur credits
              = sems := by
            rw [hdef, if_neg hemp, hfind]
            show (if cur.isEmpty then sems
                else planLoop remaining target fuel elig comp (sems ++ [cur]) [] 0) = sems
            rw [if_pos hcur]
          rw [hres]
          have hcur' : cur = [] := List.isEmpty_iff.1 hcur
          have heq : sems.flatten ++ cur = sems.flatten := by
            rw [hcur']
            simp
          rw [← heq]
          exact inv
        · have hres : planLoop remaining target (fuel + 1) elig comp sems cur credits
              = planLoop remaining target fuel elig comp (sems ++ [cur]) [] 0 := by
            rw [hdef, if_neg hemp, hfind]
            show (if cur.isEmpty then sems
                else planLoop remaining target fuel elig comp (sems ++ [cur]) [] 0)
              = planLoop remaining target fuel elig comp (sems ++ [cur]) [] 0
            rw [if_neg hcur]
          rw [hres]
          apply ih elig comp (sems ++ [cur]) [] 0
          have heq : (sems ++ [cur]).flatten ++ ([] : List String) = sems.flatten ++ cur := by
            simp
          rw [heq]
          exact inv
      · have hcm_mem : cm ∈ elig := List.mem_of_find?_eq_some hfind
        have hcm_lk : List.lookup cm.1 remaining = some cm.2 := inv.elig_mem cm hcm_mem
        have hcm_keys : cm.1 ∈ keysOf remaining := lookup_mem_keys hcm_lk
        have hcm_ncomp : cm.1 ∉ comp := inv.elig_not_comp cm hcm_mem
        have hcm_ncom : cm.1 ∉ sems.flatten ++ cur := fun h =>
          hcm_ncomp ((inv.comp_iff cm.1).2 (Or.inr h))
        have hbase_sub : ∀ x ∈ elig.eraseP (fun x => x.1 == cm.1), x ∈ elig :=
          fun x hx => (List.eraseP_sublist elig).subset hx
        have hbase_keys_nd : (keysOf (elig.eraseP (fun x => x.1 == cm.1))).Nodup :=
          List.Nodup.sublist (List.Sublist.map Prod.fst (List.eraseP_sublist elig))
            inv.elig_keys_nodup
        have hbase_ne : ∀ x ∈ elig.eraseP (fun x => x.1 == cm.1), x.1 ≠ cm.1 :=
          eraseP_key_ne inv.elig_keys_nodup hcm_mem
        have hmem2 := rescan_mem (comp.insert cm.1) remaining
          (elig.eraseP (fun x => x.1 == cm.1))
        have inv2 : PlanInv remaining completed0
            (remaining.foldl (rescanStep (comp.insert cm.1))
              (elig.eraseP (fun x => x.1 == cm.1)))
            (comp.insert cm.1) ((sems.flatten ++ cur) ++ [cm.1]) := by
          constructor
          · refine List.Nodup.append inv.committed_nodup (List.nodup_singleton _) ?_
            intro a ha hb
            rw [List.mem_singleton] at hb
            exact hcm_ncom (hb ▸ ha)
          · intro c hc
            rcases List.mem_append.1 hc with h1 | h2
            · exact inv.committed_keys c h1
            · rw [List.mem_singleton] at h2
              exact h2 ▸ hcm_keys
          · intro x
            rw [List.mem_insert_iff]
            constructor
            · rintro (hx | hx)
              · refine Or.inr (List.mem_append.2 (Or.inr ?_))
                rw [hx]
                exact List.mem_singleton_self _
              · rcases (inv.comp_iff x).1 hx with h | h
                · exact Or.inl h
                · exact Or.inr (List.mem_append.2 (Or.inl h))
            · rintro (hx | hx)
              · exact Or.inr ((inv.comp_iff x).2 (Or.inl hx))
              · rcases List.mem_append.1 hx with h | h
                · exact Or.inr ((inv.comp_iff x).2 (Or.inr h))
                · rw [List.mem_singleton] at h
                  exact Or.inl h
          · exact rescan_nodup (comp.insert cm.1) remaining _ hbase_keys_nd
          · intro cm' hcm'
            rcases hmem2 cm' hcm' with hb | ⟨hr, -, -⟩
            · exact inv.elig_mem cm' (hbase_sub cm' hb)
            · exact lookup_of_mem_nodup hnd hr
          · intro cm' hcm'
            rcases hmem2 cm' hcm' with hb | ⟨-, hnc, -⟩
            · intro hmemc
              rcases List.mem_insert_iff.1 hmemc with h | h
              · exact hbase_ne cm' hb h
              · exact inv.elig_not_comp cm' (hbase_sub cm' hb) h
            · exact hnc
          · intro cm' hcm' pre hpre
            rcases hmem2 cm' hcm' with hb | ⟨-, -, hall⟩
            · exact List.mem_insert_iff.2
                (Or.inr (inv.elig_sat cm' (hbase_sub cm' hb) pre hpre))
            · exact of_decide_eq_true (List.all_eq_true.1 hall pre hpre)
          · intro c hc m hm pre hpre
            rcases List.mem_append.1 hc with h1 | h2
            · exact List.mem_insert_iff.2
                (Or.inr (inv.committed_sat c h1 m hm pre hpre))
            · rw [List.mem_singleton] at h2
              subst h2
              rw [hcm_lk] at hm
              injection hm with hm
              subst hm
              exact List.mem_insert_iff.2 (Or.inr (inv.elig_sat cm hcm_mem pre hpre))
          · intro i hi m hm pre hpre hprek
            have hi2 : i < (sems.flatten ++ cur).length + 1 := by
              have h := hi
              rw [List.length_append, List.length_singleton] at h
              exact h
            by_cases hiL : i < (sems.flatten ++ cur).length
            · have hget : ((sems.flatten ++ cur) ++ [cm.1]).get ⟨i, hi⟩
                  = (sems.flatten ++ cur).get ⟨i, hiL⟩ := List.get_append i hiL
              rw [hget] at hm
              rw [List.take_append_of_le_length (le_of_lt hiL)]
              exact inv.ordered i hiL m hm pre hpre hprek
            · have hieq : i = (sems.flatten ++ cur).length := by omega
              subst hieq
              have hget : ((sems.flatten ++ cur) ++ [cm.1]).get
                  ⟨(sems.flatten ++ cur).length, hi⟩ = cm.1 := by
                rw [List.get_append_right] <;> simp
              rw [hget, hcm_lk] at hm
              injection hm with hm
              subst hm
              rw [List.take_append_of_le_length (le_refl _), List.take_length]
              have hsat : pre ∈ comp := inv.elig_sat cm hcm_mem pre hpre
              rcases (inv.comp_iff pre).1 hsat with h | h
              · exact absurd h (hdisj pre hprek)
              · exact h
        have hres : planLoop remaining target (fuel + 1) elig comp sems cur credits
            = planLoop remaining target fuel
              (remaining.foldl (rescanStep (comp.insert cm.1))
                (elig.eraseP (fun x => x.1 == cm.1)))
              (comp.insert cm.1) sems (cur ++ [cm.1]) (credits + cm.2.credits) := by
          rw [hdef, if_neg hemp, hfind]
        rw [hres]
        apply ih _ _ sems (cur ++ [cm.1]) (credits + cm.2.credits)
        have heq : sems.flatten ++ (cur ++ [cm.1]) = (sems.flatten ++ cur) ++ [cm.1] :=
          (List.append_assoc _ _ _).symm
        rw [heq]
        exact inv2

theorem generate_plan_inv (remaining : ModuleDict) (completed_keys : List String)
    (target : Int) (hnd : (keysOf remaining).Nodup)
    (hdisj : ∀ c ∈ keysOf remaining, c ∉ completed_keys)
    {plan : List (List String)}
    (hplan : generate_credit_plan remaining completed_keys target = some plan) :
    ∃ elig2 comp2, PlanInv remaining completed_keys elig2 comp2 plan.flatten := by
  have hgen : generate_credit_plan remaining completed_keys target
      = if remaining.isEmpty then none
        else
          match topological_sort remaining with
          | (some topo_order, none) =>
            some (planLoop remaining target (2 * remaining.length + 3)
              (topo_order.foldl (eligStep remaining completed_keys) [])
              completed_keys [] [] 0)
          | (_, _) => none := rfl
  rw [hgen] at hplan
  by_cases hre : remaining.isEmpty
  · rw [if_pos hre] at hplan
    exact Option.noConfusion hplan
  · rw [if_neg hre] at hplan
    rcases hts : topological_sort remaining with ⟨tfst, tsnd⟩
    rw [hts] at hplan
    rcases tfst with _ | topo
    · rcases tsnd with _ | cyc
      · exact Option.noConfusion hplan
      · exact Option.noConfusion hplan
    · rcases tsnd with _ | cyc
      · have hplan2 : some (planLoop remaining target (2 * remaining.length + 3)
            (topo.foldl (eligStep remaining completed_keys) [])
            completed_keys [] [] 0) = some plan := hplan
        injection hplan2 with hplan2
        have hts1 : (topological_sort remaining).1 = some topo := by rw [hts]
        obtain ⟨htopo_nd, htopo_keys⟩ := topological_sort_some_props remaining hnd hts1
        obtain ⟨hek_nd, helig0⟩ := elig0_spec remaining completed_keys topo [] htopo_nd
          (by simp [keysOf]) (by intro c hc; simp [keysOf] at hc)
          (by intro cm hcm; cases hcm)
        have inv0 : PlanInv remaining completed_keys
            (topo.foldl (eligStep remaining completed_keys) []) completed_keys [] := by
          constructor
          · exact List.nodup_nil
          · intro c hc
            cases hc
          · intro x
            simp
          · exact hek_nd
          · intro cm hcm
            exact (helig0 cm hcm).1
          · intro cm hcm
            exact hdisj cm.1 (lookup_mem_keys (helig0 cm hcm).1)
          · intro cm hcm pre hpre
            exact of_decide_eq_true (List.all_eq_true.1 (helig0 cm hcm).2 pre hpre)
          · intro c hc
            cases hc
          · intro i hi
            exact absurd hi (by simp)
        obtain ⟨e2, c2, invF⟩ := planLoop_spec remaining completed_keys target hnd hdisj
          (2 * remaining.length + 3) (topo.foldl (eligStep remaining completed_keys) [])
          completed_keys [] [] 0 inv0
        rw [hplan2] at invF
        exact ⟨e2, c2, invF⟩
      · exact Option.noConfusion hplan

theorem planPos_mono (plan : List (List String)) (hnd : plan.flatten.Nodup)
    {a b : String} (ha : a ∈ plan.flatten) (hb : b ∈ plan.flatten)
    (hidx : plan.flatten.indexOf a < plan.flatten.indexOf b) :
    (planPos plan a).1 ≤ (planPos plan b).1 ∧
      ((planPos plan a).1 = (planPos plan b).1 →
        (planPos plan a).2 < (planPos plan b).2) := by
  induction plan with
  | nil => exact absurd ha (by simp)
  | cons per rest ihp =>
    rw [List.flatten_cons] at ha hb hidx hnd
    have hpos : ∀ x : String, x ∈ per →
        planPos (per :: rest) x = (0, per.indexOf x) := by
      intro x hx
      simp [planPos, List.findIdx_cons, hx]
    have hpos2 : ∀ x : String, x ∉ per →
        planPos (per :: rest) x = (rest.findIdx (fun s => decide (x ∈ s)) + 1,
          (rest.getD (rest.findIdx (fun s => decide (x ∈ s))) []).indexOf x) := by
      intro x hx
      simp [planPos, List.findIdx_cons, hx]
    by_cases hap : a ∈ per <;> by_cases hbp : b ∈ per
    · rw [hpos a hap, hpos b hbp]
      refine ⟨le_refl 0, fun _ => ?_⟩
      show per.indexOf a < per.indexOf b
      have ha' : (per ++ rest.flatten).indexOf a = per.indexOf a :=
        List.indexOf_append_of_mem hap
      have hb' : (per ++ rest.flatten).indexOf b = per.indexOf b :=
        List.indexOf_append_of_mem hbp
      rw [ha', hb'] at hidx
      exact hidx
    · rw [hpos a hap, hpos2 b hbp]
      constructor
      · show (0 : Nat) ≤ rest.findIdx (fun s => decide (b ∈ s)) + 1
        omega
      · intro h
        have h' : (0 : Nat) = rest.findIdx (fun s => decide (b ∈ s)) + 1 := h
        omega
    · exfalso
      have ha' : (per ++ rest.flatten).indexOf a = per.length + rest.flatten.indexOf a :=
        List.indexOf_append_of_not_mem hap
      have hb' : (per ++ rest.flatten).indexOf b = per.indexOf b :=
        List.indexOf_append_of_mem hbp
      have hblt : per.indexOf b < per.length := List.indexOf_lt_length.2 hbp
      rw [ha', hb'] at hidx
      omega
    · have haf : a ∈ rest.flatten := by
        rcases List.mem_append.1 ha with h | h
        · exact absurd h hap
        · exact h
      have hbf : b ∈ rest.flatten := by
        rcases List.mem_append.1 hb with h | h
        · exact absurd h hbp
        · exact h
      have ha' : (per ++ rest.flatten).indexOf a = per.length + rest.flatten.indexOf a :=
        List.indexOf_append_of_not_mem hap
      have hb' : (per ++ rest.flatten).indexOf b = per.length + rest.flatten.indexOf b :=
        List.indexOf_append_of_not_mem hbp
      rw [ha', hb'] at hidx
      have hidx2 : rest.flatten.indexOf a < rest.flatten.indexOf b := by omega
      have hndr : rest.flatten.Nodup := (List.nodup_append.1 hnd).2.1
      have ihr := ihp hndr haf hbf hidx2
      have hpr : ∀ x : String, planPos rest x
          = (rest.findIdx (fun s => decide (x ∈ s)),
             (rest.getD (rest.findIdx (fun s => decide (x ∈ s))) []).indexOf x) :=
        fun x => rfl
      rw [hpr a, hpr b] at ihr
      rw [hpos2 a hap, hpos2 b hbp]
      constructor
      · show rest.findIdx (fun s => decide (a ∈ s)) + 1
            ≤ rest.findIdx (fun s => decide (b ∈ s)) + 1
        have h1 : rest.findIdx (fun s => decide (a ∈ s))
            ≤ rest.findIdx (fun s => decide (b ∈ s)) := ihr.1
        omega
      · intro h
        have h0 : rest.findIdx (fun s => decide (a ∈ s)) + 1
            = rest.findIdx (fun s => decide (b ∈ s)) + 1 := h
        have h' : rest.findIdx (fun s => decide (a ∈ s))
            = rest.findIdx (fun s => decide (b ∈ s)) := by omega
        show (rest.getD (rest.findIdx (fun s => decide (a ∈ s))) []).indexOf a
            < (rest.getD (rest.findIdx (fun s => decide (b ∈ s))) []).indexOf b
        exact ihr.2 h'

/-- C3: for every remaining dict (with distinct keys, disjoint from the real
completed set), positive credit cap, and plan produced by
`generate_credit_plan`, every scheduled module is placed no earlier than each
of its prerequisites that is itself a key of the remaining dict: the
prerequisite is scheduled, its period index (`planPos`) is less than or equal
to the module's, and within a shared period it is committed strictly
earlier. -/
theorem C3_plan_respects_prereqs (remaining : ModuleDict) (completed_keys : List String)
    (target : Int) (htarget : 0 < target) (hnd : (keysOf remaining).Nodup)
    (hdisj : ∀ c ∈ keysOf remaining, c ∉ completed_keys)
    (plan : List (List String))
    (hplan : generate_credit_plan remaining completed_keys target = some plan)
    (c : String) (m : Module) (hc : c ∈ plan.flatten)
    (hm : List.lookup c remaining = some m)
    (pre : String) (hpre : pre ∈ m.prerequisites) (hprek : pre ∈ keysOf remaining) :
    pre ∈ plan.flatten ∧ (planPos plan pre).1 ≤ (planPos plan c).1 ∧
      ((planPos plan pre).1 = (planPos plan c).1 →
        (planPos plan pre).2 < (planPos plan c).2) := by
  obtain ⟨e2, c2, invF⟩ := generate_plan_inv remaining completed_keys target hnd hdisj hplan
  obtain ⟨i, hgetc⟩ := List.mem_iff_get.1 hc
  have hget' : plan.flatten.get ⟨i.1, i.2⟩ = c := hgetc
  have htake := invF.ordered i.1 i.2 m (by rw [hget']; exact hm) pre hpre hprek
  have hpre_mem : pre ∈ plan.flatten := List.mem_of_mem_take htake
  have hidx_pre : plan.flatten.indexOf pre < i.1 := indexOf_lt_of_mem_take htake
  have hidx_c : plan.flatten.indexOf c = i.1 := by
    rw [← hget']
    exact List.get_indexOf invF.committed_nodup ⟨i.1, i.2⟩
  have hlt : plan.flatten.indexOf pre < plan.flatten.indexOf c := by
    rw [hidx_c]
    exact hidx_pre
  exact ⟨hpre_mem, planPos_mono plan invF.committed_nodup hpre_mem hc hlt⟩

/-- Witness for C3 on the chain A → B → C with a 5-credit cap: the plan is
[[A], [B], [C]] and the prerequisite B of C is scheduled strictly earlier. -/
theorem C3_plan_respects_prereqs_witness :
    "B" ∈ ([["A"], ["B"], ["C"]] : List (List String)).flatten ∧
      (planPos [["A"], ["B"], ["C"]] "B").1 ≤ (planPos [["A"], ["B"], ["C"]] "C").1 ∧
      ((planPos [["A"], ["B"], ["C"]] "B").1 = (planPos [["A"], ["B"], ["C"]] "C").1 →
        (planPos [["A"], ["B"], ["C"]] "B").2 < (planPos [["A"], ["B"], ["C"]] "C").2) :=
  C3_plan_respects_prereqs exChain [] 5 (by decide) (by decide) (by decide)
    [["A"], ["B"], ["C"]] (by decide) "C" modC (by decide) (by decide)
    "B" (by decide) (by decide)

/-- C4 is false of the code: on the acyclic dict `exBlocked` (module B has
the external prerequisite Z, absent from both the completed set and the
remaining keys) the planner returns `some [["A"]]` — a silent partial plan
that neither reports the unplaceable remainder {B} nor signals a blocked
state in any way. -/
theorem C4_blocked_counterexample :
    detect_cycle exBlocked = none ∧
    generate_credit_plan exBlocked [] 15 = some [["A"]] ∧
    "B" ∈ keysOf exBlocked ∧
    "B" ∉ ([["A"]] : List (List String)).flatten :=
  ⟨by decide, by decide, by decide, by decide⟩

/-- C4 (amended): on an acyclic remaining dict (distinct keys, disjoint from
the real completed set) the planner always returns `some plan` — never an
error and never a remainder: the unplaceable modules are silently dropped.
Every scheduled code is a remaining key, and a module one of whose
prerequisites lies outside both the completed set and the remaining keys can
never become eligible and is never scheduled. -/
theorem C4_unplaceable_modules_dropped (remaining : ModuleDict)
    (completed_keys : List String) (target : Int)
    (hnd : (keysOf remaining).Nodup)
    (hdisj : ∀ c ∈ keysOf remaining, c ∉ completed_keys)
    (hac : Acyclic remaining) (hne : remaining ≠ []) :
    ∃ plan, generate_credit_plan remaining completed_keys target = some plan ∧
      (∀ c ∈ plan.flatten, c ∈ keysOf remaining) ∧
      ∀ c m, List.lookup c remaining = some m →
        (∃ pre ∈ m.prerequisites, pre ∉ completed_keys ∧ pre ∉ keysOf remaining) →
        c ∉ plan.flatten := by
  obtain ⟨ord, hts, -, -⟩ := topological_sort_complete remaining hnd hac
  rcases hgenv : generate_credit_plan remaining completed_keys target with _ | plan
  · exfalso
    have hgen : generate_credit_plan remaining completed_keys target
        = if remaining.isEmpty then none
          else
            match topological_sort remaining with
            | (some topo_order, none) =>
              some (planLoop remaining target (2 * remaining.length + 3)
                (topo_order.foldl (eligStep remaining completed_keys) [])
                completed_keys [] [] 0)
            | (_, _) => none := rfl
    have hre : ¬remaining.isEmpty := by
      intro hh
      exact hne (List.isEmpty_iff.1 hh)
    rw [hgen, if_neg hre, hts] at hgenv
    exact Option.noConfusion hgenv
  · obtain ⟨e2, c2, invF⟩ :=
      generate_plan_inv remaining completed_keys target hnd hdisj hgenv
    refine ⟨plan, rfl, fun c hc => invF.committed_keys c hc, ?_⟩
    rintro c m hm ⟨pre, hpre, hpre_nc, hpre_nk⟩ hcmem
    have hsat := invF.committed_sat c hcmem m hm pre hpre
    rcases (invF.comp_iff pre).1 hsat with h | h
    · exact hpre_nc h
    · exact hpre_nk (invF.committed_keys pre h)

/-- Witness for the amended C4 on `exBlocked`: the planner succeeds, schedules
only remaining keys, and drops every module with an external prerequisite. -/
theorem C4_unplaceable_modules_dropped_witness :
    ∃ plan, generate_credit_plan exBlocked [] 15 = some plan ∧
      (∀ c ∈ plan.flatten, c ∈ keysOf exBlocked) ∧
      ∀ c m, List.lookup c exBlocked = some m →
        (∃ pre ∈ m.prerequisites, pre ∉ ([] : List String) ∧ pre ∉ keysOf exBlocked) →
        c ∉ plan.flatten :=
  C4_unplaceable_modules_dropped exBlocked [] 15 (by decide) (by decide)
    ((detect_cycle_spec exBlocked).2 (by decide)) (by decide)

end Scheduler

